import Mathlib

/-!
Shallow embedding of the log-structured key-value store engine
(src/engine/my_engine.rs) and of the TCP request handler (src/server.rs).

Strings are modelled as their UTF-8 byte sequences (`List Nat`), so the
length prefix of a record is literally the length of the encoded list.
Files are byte lists held in an inode store; the segment table and the
in-memory index are association lists.  The writer, reader and compactor
act sequentially on one `Sys` state; a compaction tick is one atomic step,
which is a legal schedule of the real program (the compactor thread may
run between any two writer operations).
-/

set_option maxRecDepth 200000

namespace Kvs

abbrev Bytes := List Nat

/-- Constant from my_engine.rs: SEGMENT_SIZE = 1 * 1024. -/
def SEGMENT_SIZE : Nat := 1 * 1024

/-- Constant from my_engine.rs: COMPACT_THRESHOLD = 2 * SEGMENT_SIZE. -/
def COMPACT_THRESHOLD : Nat := 2 * SEGMENT_SIZE

/-- On-disk record, struct Entry { key, val, is_del } of my_engine.rs. -/
structure Entry where
  key : Bytes
  val : Bytes
  is_del : Bool
deriving DecidableEq, Repr

/-- Entry::put. -/
def Entry.put (k v : Bytes) : Entry := ⟨k, v, false⟩

/-- Entry::del (val is the empty string). -/
def Entry.del (k : Bytes) : Entry := ⟨k, [], true⟩

/-! ### serde_json model

serde_json::to_vec on Entry emits, byte for byte,
\x7b"key":"K","val":"V","is_del":B\x7d with no whitespace, fields in
declaration order, B either true or false, and K, V escaped as follows:
a quote or backslash gets a backslash prefix, the control bytes
0x08 0x09 0x0a 0x0c 0x0d become two-byte short escapes, every other byte
below 0x20 becomes a six-byte lowercase hexadecimal escape, and all other
bytes (including non-ASCII UTF-8 bytes) pass through unchanged. -/

/-- Lowercase hexadecimal digit byte, as in serde_json's HEX_DIGITS table. -/
def hexDig (d : Nat) : Nat := if d < 10 then 48 + d else 87 + d

/-- Inverse of hexDig. -/
def unhexDig (c : Nat) : Nat := if c < 58 then c - 48 else c - 87

/-- serde_json escaping of one byte of a JSON string. -/
def escByte (b : Nat) : Bytes :=
  if b = 34 then [92, 34]
  else if b = 92 then [92, 92]
  else if b = 8 then [92, 98]
  else if b = 9 then [92, 116]
  else if b = 10 then [92, 110]
  else if b = 12 then [92, 102]
  else if b = 13 then [92, 114]
  else if b < 32 then [92, 117, 48, 48, hexDig (b / 16), hexDig (b % 16)]
  else [b]

/-- serde_json escaping of a whole string body. -/
def escStr (s : Bytes) : Bytes := (s.map escByte).flatten

/-- The bytes of the literal chunk before the key string. -/
def litKey : Bytes := [123, 34, 107, 101, 121, 34, 58, 34]

/-- The bytes between the key string and the val string. -/
def litVal : Bytes := [34, 44, 34, 118, 97, 108, 34, 58, 34]

/-- The bytes between the val string and the boolean. -/
def litDel : Bytes := [34, 44, 34, 105, 115, 95, 100, 101, 108, 34, 58]

/-- The bytes of the tail for is_del = true. -/
def litTrue : Bytes := [116, 114, 117, 101, 125]

/-- The bytes of the tail for is_del = false. -/
def litFalse : Bytes := [102, 97, 108, 115, 101, 125]

/-- Model of serde_json::to_vec(&entry): the JSON payload of a record. -/
def encEntry (e : Entry) : Bytes :=
  litKey ++ escStr e.key ++ litVal ++ escStr e.val ++ litDel ++
    (if e.is_del then litTrue else litFalse)

/-- Strip an expected literal prefix, returning the remainder. -/
def stripPre (pre l : Bytes) : Option Bytes :=
  match pre, l with
  | [], l => some l
  | a :: pre, b :: l => if a = b then stripPre pre l else none
  | _ :: _, [] => none

/-- The byte encoded by a two-character short escape, or none. -/
def shortEsc (c : Nat) : Option Nat :=
  if c = 34 then some 34
  else if c = 92 then some 92
  else if c = 98 then some 8
  else if c = 116 then some 9
  else if c = 110 then some 10
  else if c = 102 then some 12
  else if c = 114 then some 13
  else none

/-- Decode the input following a backslash: the escaped byte and the
remaining input after the whole escape sequence. -/
def slashDecode (rest : Bytes) : Option (Nat × Bytes) :=
  match rest with
  | [] => none
  | c :: rest2 =>
    match shortEsc c with
    | some x => some (x, rest2)
    | none =>
      if c = 117 then
        match rest2 with
        | a :: b2 :: c2 :: d2 :: rest3 =>
          if a = 48 ∧ b2 = 48 then some (16 * unhexDig c2 + unhexDig d2, rest3)
          else none
        | _ => none
      else none

/-- Parse a JSON string body up to and including its closing quote,
returning the unescaped content and the remainder after the quote.  The
fuel argument (instantiated with the input length, which is enough since
every step consumes at least one input byte) makes the recursion
structural. -/
def unescF : Nat → Bytes → Option (Bytes × Bytes)
  | 0, _ => none
  | _ + 1, [] => none
  | fuel + 1, b :: rest =>
    if b = 34 then some ([], rest)
    else if b = 92 then
      match slashDecode rest with
      | some xr => (unescF fuel xr.2).map fun sr => (xr.1 :: sr.1, sr.2)
      | none => none
    else (unescF fuel rest).map fun sr => (b :: sr.1, sr.2)

def unesc (l : Bytes) : Option (Bytes × Bytes) := unescF l.length l

/-- Model of serde_json::from_slice::<Entry> on the payload bytes: accepts
exactly the canonical serde_json encoding of an Entry. -/
def parseEntry (p : Bytes) : Option Entry :=
  match stripPre litKey p with
  | none => none
  | some r1 =>
    match unesc r1 with
    | none => none
    | some (k, r2) =>
      match stripPre [44, 34, 118, 97, 108, 34, 58, 34] r2 with
      | none => none
      | some r3 =>
        match unesc r3 with
        | none => none
        | some (v, r4) =>
          match stripPre [44, 34, 105, 115, 95, 100, 101, 108, 34, 58] r4 with
          | none => none
          | some r5 =>
            if r5 = litTrue then some ⟨k, v, true⟩
            else if r5 = litFalse then some ⟨k, v, false⟩
            else none

/-! ### Record framing: len_be32 followed by the JSON payload. -/

/-- Big-endian bytes of a u32 value, u32::to_be_bytes. -/
def be32 (n : Nat) : Bytes :=
  [n / 2 ^ 24 % 256, n / 2 ^ 16 % 256, n / 2 ^ 8 % 256, n % 256]

/-- u32::from_be_bytes. -/
def dec32 (b0 b1 b2 b3 : Nat) : Nat := ((b0 * 256 + b1) * 256 + b2) * 256 + b3

/-- One framed record as written by append_entry / append_entry_2:
the payload length as u32 (the Rust code casts with `as u32`,
hence the modulus) followed by the payload bytes. -/
def frame (p : Bytes) : Bytes := be32 (p.length % 2 ^ 32) ++ p

/-- A whole segment built from a list of payloads. -/
def frames (ps : List Bytes) : Bytes := (ps.map frame).flatten

/-- Model of iter_entries / iter_entries_2: walk the framed records of a
file, yielding (payload_offset, payload_bytes) pairs; payload_offset is
the absolute offset just after the 4 length bytes.  The fuel argument
(instantiated with the file length) makes the recursion structural. -/
def recsAux : Nat → Bytes → Nat → List (Nat × Bytes)
  | 0, _, _ => []
  | fuel + 1, b0 :: b1 :: b2 :: b3 :: rest, off =>
      let n := dec32 b0 b1 b2 b3
      (off + 4, rest.take n) :: recsAux fuel (rest.drop n) (off + 4 + n)
  | _ + 1, _, _ => []

/-- All records of a segment with their payload offsets. -/
def recsOf (l : Bytes) : List (Nat × Bytes) := recsAux l.length l 0

/-- The record list of a payload list, with absolute payload offsets
starting at off: what iterating a well-formed segment yields. -/
def offsetsGo (off : Nat) : List Bytes → List (Nat × Bytes)
  | [] => []
  | p :: t => (off + 4, p) :: offsetsGo (off + 4 + p.length) t

/-- Model of append_entry: write the u32 length, record the offset
(the file length after the 4 length bytes), write the payload; returns
((len, offset), new file contents). -/
def appendEntry (file : Bytes) (e : Entry) : (Nat × Nat) × Bytes :=
  let p := encEntry e
  ((p.length % 2 ^ 32, file.length + 4), file ++ frame p)

/-- Model of pread_exact at (offset, len): the positioned read used by
Reader::get. -/
def preadAt (b : Bytes) (off len : Nat) : Bytes := (b.drop off).take len

/-- Model of read_entry: read 4 bytes, interpret them as a big-endian
u32, read exactly that many payload bytes; fails on a short file. -/
def readRec : Bytes → Option (Bytes × Bytes)
  | b0 :: b1 :: b2 :: b3 :: rest =>
    let n := dec32 b0 b1 b2 b3
    if n ≤ rest.length then some (rest.take n, rest.drop n) else none
  | _ => none

/-! ### Association-list maps

The in-memory index (DashMap) and the inode store are plain association
lists; the segment table (BTreeMap) is an association list kept in
ascending key order by ordered insertion, so that List.take 2 is exactly
handles.iter().take(2). -/

/-- First value stored under a key. -/
def alook {β : Type} (l : List (Nat × β)) (k : Nat) : Option β :=
  match l with
  | [] => none
  | (a, b) :: t => if k = a then some b else alook t k

/-- First value stored under a byte-string key. -/
def slook {β : Type} (l : List (Bytes × β)) (k : Bytes) : Option β :=
  match l with
  | [] => none
  | (a, b) :: t => if k = a then some b else slook t k

/-- Insert-or-replace for unordered maps. -/
def aset {β : Type} (l : List (Nat × β)) (k : Nat) (v : β) : List (Nat × β) :=
  match l with
  | [] => [(k, v)]
  | (a, b) :: t => if k = a then (a, v) :: t else (a, b) :: aset t k v

/-- Insert-or-replace for byte-string keyed maps. -/
def sset {β : Type} (l : List (Bytes × β)) (k : Bytes) (v : β) : List (Bytes × β) :=
  match l with
  | [] => [(k, v)]
  | (a, b) :: t => if k = a then (a, v) :: t else (a, b) :: sset t k v

/-- Remove a byte-string key (maps hold each key at most once, so this
is DashMap::remove). -/
def serase {β : Type} (l : List (Bytes × β)) (k : Bytes) : List (Bytes × β) :=
  l.filter fun ab => ab.1 ≠ k

/-- Remove a numeric key (BTreeMap::remove). -/
def aerase {β : Type} (l : List (Nat × β)) (k : Nat) : List (Nat × β) :=
  l.filter fun ab => ab.1 ≠ k

/-- Ordered insert-or-replace, keeping keys ascending (BTreeMap::insert). -/
def hinsert {β : Type} (l : List (Nat × β)) (k : Nat) (v : β) : List (Nat × β) :=
  match l with
  | [] => [(k, v)]
  | (a, b) :: t =>
    if k < a then (k, v) :: (a, b) :: t
    else if k = a then (a, v) :: t
    else (a, b) :: hinsert t k v

/-! ### Engine state and operations -/

/-- Index entry, struct Index { file, len, offset } of my_engine.rs.
len is a u32 (the payload byte length), offset the absolute payload
offset in the segment file. -/
structure Index where
  file : Nat
  len : Nat
  offset : Nat
deriving DecidableEq, Repr

/-- Error kinds surfaced by the writer: MyErr::KeyNotFound, or an
underlying io::Error propagated by the ? operator. -/
inductive Err where
  | KeyNotFound
  | Io
deriving DecidableEq, Repr

/-- The whole engine state.  inodes maps inode ids to file contents;
handles is the segment table file_id -> inode (ascending by file_id);
indices is the in-memory index; wId / wIno are the writer's file_id and
its open handle.  A file removed from handles but still held by the
writer stays in inodes: that models a deleted file being written through
a still-open handle.  Since every directory mutation of the code
(new_active_file, remove_file, rename) is mirrored in the segment table,
the directory contents coincide with handles. -/
structure Sys where
  nextIno : Nat
  inodes : List (Nat × Bytes)
  handles : List (Nat × Nat)
  indices : List (Bytes × Index)
  wId : Nat
  wIno : Nat
  unc : Nat
deriving DecidableEq, Repr

/-- Wrapping u64 addition (AtomicU64::fetch_add). -/
def uadd (a b : Nat) : Nat := (a + b) % 2 ^ 64

/-- Wrapping u64 subtraction (AtomicU64::fetch_sub). -/
def usub (a b : Nat) : Nat := (a + (2 ^ 64 - b % 2 ^ 64)) % 2 ^ 64

/-- Writer::cut: bump file_id, create the new active segment (an empty
file at a fresh inode) and install its handle in the segment table. -/
def Writer.cut (s : Sys) : Sys :=
  { s with
    wId := s.wId + 1
    wIno := s.nextIno
    nextIno := s.nextIno + 1
    inodes := aset s.inodes s.nextIno []
    handles := hinsert s.handles (s.wId + 1) s.nextIno }

/-- Writer::set: append the put record to the active file (append_entry
returns the u32 payload length and the payload offset, measured after the
4 length bytes are written), install the new index entry, account the
displaced entry in uncompacted, and rotate if offset + len reaches
SEGMENT_SIZE. -/
def Writer.set (s : Sys) (k v : Bytes) : Sys :=
  let fb := (alook s.inodes s.wIno).getD []
  let r := appendEntry fb (Entry.put k v)
  let len := r.1.1
  let offset := r.1.2
  let old := slook s.indices k
  let s1 : Sys :=
    { s with
      inodes := aset s.inodes s.wIno r.2
      indices := sset s.indices k ⟨s.wId, len, offset⟩
      unc := match old with
             | some o => uadd s.unc (4 + o.len)
             | none => s.unc }
  if SEGMENT_SIZE ≤ offset + len then Writer.cut s1 else s1

/-- Writer::remove: drop the index entry (failing with KeyNotFound when
absent), then append the delete record, account 4 + old.len + 4 + len
bytes as uncompacted, and rotate if needed.  The appendOk flag models
whether the disk append of the delete record succeeds; when it fails the
? operator returns the io error after the index entry is already gone. -/
def Writer.remove (appendOk : Bool) (s : Sys) (k : Bytes) : Except Err Unit × Sys :=
  match slook s.indices k with
  | none => (.error .KeyNotFound, s)
  | some old =>
    let s1 : Sys := { s with indices := serase s.indices k }
    if appendOk then
      let fb := (alook s1.inodes s1.wIno).getD []
      let r := appendEntry fb (Entry.del k)
      let len := r.1.1
      let offset := r.1.2
      let s2 : Sys :=
        { s1 with
          inodes := aset s1.inodes s1.wIno r.2
          unc := uadd s1.unc (4 + old.len + 4 + len) }
      (.ok (), if SEGMENT_SIZE ≤ offset + len then Writer.cut s2 else s2)
    else
      (.error .Io, s1)

/-- The state after Writer::set's append and index update, before the
rotation check. -/
def setMid (s : Sys) (k v : Bytes) : Sys :=
  { s with
    inodes := aset s.inodes s.wIno
      ((alook s.inodes s.wIno).getD [] ++ frame (encEntry (Entry.put k v)))
    indices := sset s.indices k
      ⟨s.wId, (encEntry (Entry.put k v)).length % 2 ^ 32,
        ((alook s.inodes s.wIno).getD []).length + 4⟩
    unc := match slook s.indices k with
           | some o => uadd s.unc (4 + o.len)
           | none => s.unc }

/-- The state after Writer::remove's erase and append of the delete
record, before the rotation check. -/
def rmMid (s : Sys) (k : Bytes) (old : Index) : Sys :=
  { s with
    indices := serase s.indices k
    inodes := aset s.inodes s.wIno
      ((alook s.inodes s.wIno).getD [] ++ frame (encEntry (Entry.del k)))
    unc := uadd s.unc (4 + old.len + 4 + (encEntry (Entry.del k)).length % 2 ^ 32) }

/-- Reader::get.  some none is Ok(None); some (some v) is Ok(Some(v));
none is a failure: either the segment-table unwrap aborts because the
index entry's file id is not in the table, or the positioned read or the
JSON parse returns an error. -/
def Reader.get (s : Sys) (k : Bytes) : Option (Option Bytes) :=
  match slook s.indices k with
  | none => some none
  | some idx =>
    match alook s.handles idx.file with
    | none => none
    | some ino =>
      match alook s.inodes ino with
      | none => none
      | some bytes =>
        match parseEntry (preadAt bytes idx.offset idx.len) with
        | some e => some (some e.val)
        | none => none

/-- The compaction sources: handles.iter().take(2), the two smallest
file ids of the segment table. -/
def compactSrc (s : Sys) : List (Nat × Nat) := s.handles.take 2

/-- One record of the compaction scan (the compact_log closure): a delete
record is rewritten when its key is absent from the index; a put record
is rewritten when the index entry still equals this (file_id, offset),
remembering (key, old_file, old_offset, new_offset).  The accumulator is
the compacting file contents and the moved list. -/
def compactRec (s : Sys) (id : Nat) (acc : Bytes × List (Bytes × Nat × Nat × Nat))
    (rec : Nat × Bytes) : Bytes × List (Bytes × Nat × Nat × Nat) :=
  let (dst, moved) := acc
  let (off, p) := rec
  match parseEntry p with
  | none => acc
  | some e =>
    if e.is_del then
      if slook s.indices e.key = none then (dst ++ frame p, moved) else acc
    else
      match slook s.indices e.key with
      | some idx =>
        if idx.file = id ∧ idx.offset = off then
          (dst ++ frame p, moved ++ [(e.key, id, off, dst.length + 4)])
        else acc
      | none => acc

/-- The whole compaction scan over the source segments in ascending
file-id order, records in file order. -/
def compactScan (s : Sys) : Bytes × List (Bytes × Nat × Nat × Nat) :=
  (compactSrc s).foldl
    (fun acc (idf : Nat × Nat) =>
      (recsOf ((alook s.inodes idf.2).getD [])).foldl (compactRec s idf.1) acc)
    ([], [])

/-- The scan items flattened into a single list: (file_id, payload
offset, payload bytes) for each record of each source, sources in
ascending file-id order, records in file order. -/
def scanItems (s : Sys) : List (Nat × Nat × Bytes) :=
  (compactSrc s).flatMap fun idf =>
    (recsOf ((alook s.inodes idf.2).getD [])).map fun r => (idf.1, r.1, r.2)

/-- One flattened scan step. -/
def scanStep (s : Sys) (acc : Bytes × List (Bytes × Nat × Nat × Nat))
    (it : Nat × Nat × Bytes) : Bytes × List (Bytes × Nat × Nat × Nat) :=
  compactRec s it.1 acc (it.2.1, it.2.2)

/-- One compare-and-update of the index against a remembered move
(key, old_file, old_offset, new_offset): if the entry still equals
(old_file, old_offset) it is redirected to file 1 at the new offset,
keeping its length; otherwise the rewrite is discarded. -/
def redirectStep (ind : List (Bytes × Index)) (m : Bytes × Nat × Nat × Nat) :
    List (Bytes × Index) :=
  match slook ind m.1 with
  | some idx =>
    if idx.file = m.2.1 ∧ idx.offset = m.2.2.1 then sset ind m.1 ⟨1, idx.len, m.2.2.2⟩
    else ind
  | none => ind

/-- The compare-and-update pass over all remembered moves. -/
def redirect (ind : List (Bytes × Index)) (moved : List (Bytes × Nat × Nat × Nat)) :
    List (Bytes × Index) :=
  moved.foldl redirectStep ind

/-- Compactor::compact: scan the two lowest segments into the compacting
file, remove the source handles and files, install the output as segment
1, redirect the moved index entries, and subtract the net freed bytes. -/
def Compactor.compact (s : Sys) : Sys :=
  let (dst, moved) := compactScan s
  let freed := ((compactSrc s).map fun idf => ((alook s.inodes idf.2).getD []).length).sum
  let handles1 := (compactSrc s).foldl (fun h idf => aerase h idf.1) s.handles
  { s with
    nextIno := s.nextIno + 1
    inodes := aset s.inodes s.nextIno dst
    handles := hinsert handles1 1 s.nextIno
    indices := redirect s.indices moved
    unc := usub s.unc (usub freed dst.length) }

/-- One compactor wakeup: below COMPACT_THRESHOLD nothing happens,
otherwise compact runs. -/
def tick (s : Sys) : Sys :=
  if s.unc < COMPACT_THRESHOLD then s else Compactor.compact s

/-- Engine operations of a sequential history (get is read-only and is
stated directly on states). -/
inductive Op where
  | set (k v : Bytes)
  | rm (k : Bytes)
  | tick
deriving DecidableEq, Repr

/-- One history step. -/
def step (s : Sys) : Op → Sys
  | .set k v => Writer.set s k v
  | .rm k => (Writer.remove true s k).2
  | .tick => tick s

/-- KvStore::open on an empty directory: no segments to replay, the first
active segment gets file_id 0 + 1 = 1. -/
def initSys : Sys :=
  { nextIno := 1
    inodes := [(0, [])]
    handles := [(1, 0)]
    indices := []
    wId := 1
    wIno := 0
    unc := 0 }

/-- Run a history from the freshly opened store. -/
def run (ops : List Op) : Sys := ops.foldl step initSys

/-- Run a history from an arbitrary state. -/
def runFrom (s : Sys) (ops : List Op) : Sys := ops.foldl step s

/-- A history is valid when every record it writes has a JSON payload
shorter than 2^32 bytes, so the u32 length prefix is exact. -/
def validOp : Op → Bool
  | .set k v => (encEntry (Entry.put k v)).length < 2 ^ 32
  | .rm k => (encEntry (Entry.del k)).length < 2 ^ 32
  | .tick => true

def validOps (ops : List Op) : Bool := ops.all validOp

/-- A history is good when every compactor wakeup that fires (uncompacted
at or above COMPACT_THRESHOLD) finds at least three files in the segment
table, so the compaction sources are closed segments only. -/
def goodAux (s : Sys) : List Op → Bool
  | [] => true
  | o :: t =>
    (match o with
     | .tick => decide (s.unc < COMPACT_THRESHOLD ∨ 3 ≤ s.handles.length)
     | _ => true) && goodAux (step s o) t

def goodRun (ops : List Op) : Bool := goodAux initSys ops

/-! ### Recovery: KvStore::open over an existing directory -/

/-- The directory contents: one (file_id, bytes) per segment file, in
ascending file_id order.  The zero-padded file names make the code's
lexicographic path sort coincide with this numeric order. -/
def diskOf (s : Sys) : List (Nat × Bytes) :=
  s.handles.map fun idf => (idf.1, (alook s.inodes idf.2).getD [])

/-- The load_entry closure of KvStore::open applied to one replayed
record: a put inserts the index entry (accounting a displaced one), a
delete removes the entry and accounts both it and itself. -/
def loadEntry (fileId : Nat) (acc : List (Bytes × Index) × Nat) (rec : Nat × Bytes) :
    List (Bytes × Index) × Nat :=
  let (table, unc) := acc
  let (off, p) := rec
  match parseEntry p with
  | none => acc
  | some e =>
    if !e.is_del then
      let table1 := sset table e.key ⟨fileId, p.length % 2 ^ 32, off⟩
      match slook table e.key with
      | some old => (table1, unc + (4 + old.len))
      | none => (table1, unc)
    else
      match slook table e.key with
      | some old => (serase table e.key, unc + (4 + old.len) + (4 + p.length))
      | none => (table, unc + (4 + p.length))

/-- KvStore::open on a directory: replay every record of every segment,
segments in ascending file_id order, records in file order; then create
the new active segment at the largest replayed file_id plus one. -/
def openKv (disk : List (Nat × Bytes)) : Sys :=
  let replay := disk.foldl
    (fun acc (idb : Nat × Bytes) =>
      let (table, unc) := (recsOf idb.2).foldl (loadEntry idb.1) (acc.1, acc.2.2)
      (table, (idb.1, unc)))
    ([], (0, 0))
  let (table, lastId, unc) := replay
  let activeId := lastId + 1
  { nextIno := disk.length + 1
    inodes := (List.range disk.length).zipWith (fun i idb => (i, idb.2)) disk ++
      [(disk.length, [])]
    handles := disk.zipWith (fun idb i => (idb.1, i)) (List.range disk.length) ++
      [(activeId, disk.length)]
    indices := table
    wId := activeId
    wIno := disk.length
    unc := unc }

/-! ### Derived views used by the claims -/

/-- The file ids of the compaction sources. -/
def srcIds (s : Sys) : List Nat := (compactSrc s).map Prod.fst

/-- The file ids of the closed segments: every table entry except the
writer's active id. -/
def closedIds (s : Sys) : List Nat :=
  ((s.handles.filter fun idf => idf.1 ≠ s.wId).map Prod.fst)

/-- The file ids of the whole segment table. -/
def handleIds (s : Sys) : List Nat := s.handles.map Prod.fst

/-! ### Invariants of reachable states -/

/-- The index entry idx for key k is backed: its file id is in the
segment table, the inode exists, and the bytes at (offset, len) are one
whole framed record of the stream, holding a put record for k with
value v. -/
def Backed (s : Sys) (k : Bytes) (idx : Index) (v : Bytes) : Prop :=
  ∃ ino ps1 ps2,
    alook s.handles idx.file = some ino ∧
    alook s.inodes ino = some (frames (ps1 ++ encEntry (Entry.put k v) :: ps2)) ∧
    (∀ p ∈ ps1, p.length < 2 ^ 32) ∧
    (∀ p ∈ ps2, p.length < 2 ^ 32) ∧
    (encEntry (Entry.put k v)).length < 2 ^ 32 ∧
    idx.offset = (frames ps1).length + 4 ∧
    idx.len = (encEntry (Entry.put k v)).length

/-- Well-formed file: a stream of whole frames with exact u32 lengths. -/
def WfFile (b : Bytes) : Prop :=
  ∃ ps, b = frames ps ∧ ∀ p ∈ ps, p.length < 2 ^ 32

/-- Invariant of every reachable state, good histories or not: the
segment table is strictly ascending in file_id, and every file_id lies
between 1 and the writer's file_id. -/
def SortedInv (s : Sys) : Prop :=
  s.handles.Pairwise (fun x y => x.1 < y.1) ∧
  (∀ idf ∈ s.handles, 1 ≤ idf.1 ∧ idf.1 ≤ s.wId) ∧
  1 ≤ s.wId

/-- Invariant of states reachable by good histories: segment table
strictly ascending with ids between 1 and wId, the writer's active file
is in the table under wId, file 1 is present, all files are well-formed
streams, table inodes are distinct and below the allocation counter, and
every index entry is backed by a live put record. -/
structure GoodInv (s : Sys) : Prop where
  sorted : s.handles.Pairwise (fun x y => x.1 < y.1)
  bounds : ∀ idf ∈ s.handles, 1 ≤ idf.1 ∧ idf.1 ≤ s.wId
  wlink : alook s.handles s.wId = some s.wIno
  one_mem : alook s.handles 1 ≠ none
  files : ∀ idf ∈ s.handles, ∃ b, alook s.inodes idf.2 = some b ∧ WfFile b
  inoFresh : ∀ idf ∈ s.handles, idf.2 < s.nextIno
  inoDistinct : s.handles.Pairwise (fun x y => x.2 ≠ y.2)
  backed : ∀ k idx, slook s.indices k = some idx → ∃ v, Backed s k idx v

/-! ### The concrete histories used as witnesses and counterexamples

opsPre fills segment 1 (1128 bytes) with a put for key b and six puts for
key a, the last of which rotates, then churns key a in segment 2 with
set/remove pairs: uncompacted reaches 2052, at or above
COMPACT_THRESHOLD = 2048, while the table holds only the two files 1 and
2, file 2 being the active segment the writer is appending to.  The
wakeup in opsTick therefore selects the active segment as a compaction
source and deletes it; opsBug then writes key c through the deleted
active file. -/

def aK : Bytes := [97]
def bK : Bytes := [98]
def cK : Bytes := [99]
def w45 : Bytes := List.replicate 45 119
def v165 : Bytes := List.replicate 165 120
def v50 : Bytes := List.replicate 50 120
def v100 : Bytes := List.replicate 100 120
def v35 : Bytes := List.replicate 35 121
def pairOps : List Op := [.set aK [120], .rm aK]
def opsPre : List Op :=
  [.set bK w45, .set aK v165, .set aK v165, .set aK v165, .set aK v165, .set aK v50,
   .set aK v100, .rm aK] ++ (List.replicate 11 pairOps).flatten ++ [.set aK v35, .rm aK]
def opsTick : List Op := opsPre ++ [.tick]
def opsBug : List Op := opsTick ++ [.set cK [119]]

/-- The history used by the C7 amended-claim witness: two oversized puts,
each of which rotates the active segment, leaving three files. -/
def vRot : Bytes := List.replicate 990 120
def opsRot : List Op := [.set aK vRot, .set aK vRot]

/-! ### The TCP request handler (src/server.rs)

One request is parsed from the connection; keys and values are the raw
line strings (including any trailing newline), modelled as char lists.
The engine is an oracle giving the outcome of the one engine call the
handler may make; the handler returns the response bytes it writes and
the list of engine calls it performed. -/

/-- The chars trimmed from both ends, static X of server.rs. -/
def trimX : List Char := ['\n', '\t', ' ']

/-- str::trim_matches with the X character set. -/
def trim (s : List Char) : List Char :=
  ((s.dropWhile (· ∈ trimX)).reverse.dropWhile (· ∈ trimX)).reverse

/-- A parsed request: opcode plus its raw argument lines. -/
inductive Req where
  | rset (k v : List Char)
  | rrm (k : List Char)
  | rget (k : List Char)
deriving DecidableEq, Repr

/-- An engine invocation made by the handler. -/
inductive EngCall where
  | cset (k v : List Char)
  | crm (k : List Char)
  | cget (k : List Char)
deriving DecidableEq, Repr

/-- Outcomes of engine calls: doSet true means Ok; doRm none means Ok and
some msg the displayed error; doGet none means Err and some r is Ok(r). -/
structure EngOracle where
  doSet : List Char → List Char → Bool
  doRm : List Char → Option (List Char)
  doGet : List Char → Option (Option (List Char))

/-- The handler of server.rs: trim the key (and value), answer ErrNoKey /
ErrNoVal without touching the engine when empty, otherwise perform the
engine call and write the reply. -/
def handler (e : EngOracle) : Req → List Char × List EngCall
  | .rset k v =>
    let k := trim k
    if k.length = 0 then ("ErrNoKey\n".toList, [])
    else
      let v := trim v
      if v.length = 0 then ("ErrNoVal\n".toList, [])
      else if e.doSet k v then ("OK\n".toList, [.cset k v])
      else ("ErrInternal\n".toList, [.cset k v])
  | .rrm k =>
    let k := trim k
    if k.length = 0 then ("ErrNoKey\n".toList, [])
    else
      match e.doRm k with
      | some msg => (msg ++ ['\n'], [.crm k])
      | none => ("OK\n".toList, [.crm k])
  | .rget k =>
    let k := trim k
    if k.length = 0 then ('e' :: "ErrNoKey\n".toList, [])
    else
      match e.doGet k with
      | none => ('e' :: "ErrInternal\n".toList, [.cget k])
      | some (some v) => ('v' :: v ++ ['\n'], [.cget k])
      | some none => ('n' :: ['\n'], [.cget k])

/-- True when no operation of the history writes key k. -/
def avoidsSet (k : Bytes) (ops : List Op) : Bool :=
  ops.all fun o => match o with | .set k2 _ => !(k2 = k) | _ => true

/-! ## Lemmas about the association-list maps -/

theorem slook_sset_self {β : Type} (l : List (Bytes × β)) (k : Bytes) (v : β) :
    slook (sset l k v) k = some v := by
  induction l with
  | nil => simp [sset, slook]
  | cons ab t ih =>
    obtain ⟨a, b⟩ := ab
    by_cases h : k = a <;> simp [sset, slook, h, ih]

theorem slook_sset_ne {β : Type} (l : List (Bytes × β)) (k k2 : Bytes) (v : β)
    (h : k2 ≠ k) : slook (sset l k v) k2 = slook l k2 := by
  induction l with
  | nil => simp [sset, slook, h]
  | cons ab t ih =>
    obtain ⟨a, b⟩ := ab
    by_cases h1 : k = a
    · subst h1
      simp [sset, slook, h]
    · by_cases h2 : k2 = a <;> simp [sset, slook, h1, h2, ih]

theorem serase_cons {β : Type} (a : Bytes) (b : β) (t : List (Bytes × β)) (k : Bytes) :
    serase ((a, b) :: t) k = if a = k then serase t k else (a, b) :: serase t k := by
  by_cases h : a = k <;> simp [serase, h]

theorem aerase_cons {β : Type} (a : Nat) (b : β) (t : List (Nat × β)) (k : Nat) :
    aerase ((a, b) :: t) k = if a = k then aerase t k else (a, b) :: aerase t k := by
  by_cases h : a = k <;> simp [aerase, h]

theorem slook_serase_self {β : Type} (l : List (Bytes × β)) (k : Bytes) :
    slook (serase l k) k = none := by
  induction l with
  | nil => simp [serase, slook]
  | cons ab t ih =>
    obtain ⟨a, b⟩ := ab
    rw [serase_cons]
    by_cases h : a = k
    · simpa [h] using ih
    · have h2 : k ≠ a := fun hh => h hh.symm
      simpa [h, slook, h2] using ih

theorem slook_serase_ne {β : Type} (l : List (Bytes × β)) (k k2 : Bytes)
    (h : k2 ≠ k) : slook (serase l k) k2 = slook l k2 := by
  induction l with
  | nil => simp [serase, slook]
  | cons ab t ih =>
    obtain ⟨a, b⟩ := ab
    rw [serase_cons]
    by_cases h1 : a = k
    · subst h1
      simp [slook, h, ih]
    · by_cases h2 : k2 = a <;> simp [slook, h1, h2, ih]

theorem alook_aset_self {β : Type} (l : List (Nat × β)) (k : Nat) (v : β) :
    alook (aset l k v) k = some v := by
  induction l with
  | nil => simp [aset, alook]
  | cons ab t ih =>
    obtain ⟨a, b⟩ := ab
    by_cases h : k = a <;> simp [aset, alook, h, ih]

theorem alook_aset_ne {β : Type} (l : List (Nat × β)) (k k2 : Nat) (v : β)
    (h : k2 ≠ k) : alook (aset l k v) k2 = alook l k2 := by
  induction l with
  | nil => simp [aset, alook, h]
  | cons ab t ih =>
    obtain ⟨a, b⟩ := ab
    by_cases h1 : k = a
    · subst h1
      simp [aset, alook, h]
    · by_cases h2 : k2 = a <;> simp [aset, alook, h1, h2, ih]

theorem alook_aerase_ne {β : Type} (l : List (Nat × β)) (k k2 : Nat)
    (h : k2 ≠ k) : alook (aerase l k) k2 = alook l k2 := by
  induction l with
  | nil => simp [aerase, alook]
  | cons ab t ih =>
    obtain ⟨a, b⟩ := ab
    rw [aerase_cons]
    by_cases h1 : a = k
    · subst h1
      simp [alook, h, ih]
    · by_cases h2 : k2 = a <;> simp [alook, h1, h2, ih]

theorem alook_hinsert_self {β : Type} (l : List (Nat × β)) (k : Nat) (v : β) :
    alook (hinsert l k v) k = some v := by
  induction l with
  | nil => simp [hinsert, alook]
  | cons ab t ih =>
    obtain ⟨a, b⟩ := ab
    rcases Nat.lt_trichotomy k a with h | h | h
    · simp [hinsert, alook, h]
    · subst h
      simp [hinsert, alook]
    · have h1 : ¬ k < a := by omega
      have h2 : k ≠ a := by omega
      simp [hinsert, alook, h1, h2, ih]

theorem alook_hinsert_ne {β : Type} (l : List (Nat × β)) (k k2 : Nat) (v : β)
    (h : k2 ≠ k) : alook (hinsert l k v) k2 = alook l k2 := by
  induction l with
  | nil => simp [hinsert, alook, h]
  | cons ab t ih =>
    obtain ⟨a, b⟩ := ab
    rcases Nat.lt_trichotomy k a with h1 | h1 | h1
    · have : ¬ k2 = k := h
      simp [hinsert, alook, h1, this]
    · subst h1
      simp [hinsert, alook, h]
    · have h2 : ¬ k < a := by omega
      have h3 : k ≠ a := by omega
      by_cases h4 : k2 = a <;> simp [hinsert, alook, h2, h3, h4, ih]

/-- Membership in the keys of a map after slook succeeds. -/
theorem slook_mem {β : Type} (l : List (Bytes × β)) (k : Bytes) (v : β)
    (h : slook l k = some v) : (k, v) ∈ l := by
  induction l with
  | nil => simp [slook] at h
  | cons ab t ih =>
    obtain ⟨a, b⟩ := ab
    by_cases h1 : k = a
    · subst h1
      simp [slook] at h
      simp [h]
    · simp [slook, h1] at h
      exact List.mem_cons_of_mem _ (ih h)

theorem alook_mem {β : Type} (l : List (Nat × β)) (k : Nat) (v : β)
    (h : alook l k = some v) : (k, v) ∈ l := by
  induction l with
  | nil => simp [alook] at h
  | cons ab t ih =>
    obtain ⟨a, b⟩ := ab
    by_cases h1 : k = a
    · subst h1
      simp [alook] at h
      simp [h]
    · simp [alook, h1] at h
      exact List.mem_cons_of_mem _ (ih h)

/-! ## The codec round trip -/

theorem stripPre_append (pre r : Bytes) : stripPre pre (pre ++ r) = some r := by
  induction pre with
  | nil => simp [stripPre]
  | cons a t ih => simp [stripPre, ih]

theorem unhex_hex (d : Nat) (h : d < 16) : unhexDig (hexDig d) = d := by
  unfold hexDig unhexDig
  split <;> split <;> omega

theorem escStr_cons (b : Nat) (t : Bytes) : escStr (b :: t) = escByte b ++ escStr t := by
  simp [escStr]

theorem escByte_length_pos (b : Nat) : 1 ≤ (escByte b).length := by
  unfold escByte
  repeat' split
  all_goals simp

theorem escStr_length_ge (s : Bytes) : s.length ≤ (escStr s).length := by
  induction s with
  | nil => simp [escStr]
  | cons b t ih =>
    rw [escStr_cons]
    have := escByte_length_pos b
    simp only [List.length_append, List.length_cons]
    omega

theorem unescF_cons (f : Nat) (b : Nat) (rest : Bytes) :
    unescF (f + 1) (b :: rest) =
      if b = 34 then some ([], rest)
      else if b = 92 then
        match slashDecode rest with
        | some xr => (unescF f xr.2).map fun sr => (xr.1 :: sr.1, sr.2)
        | none => none
      else (unescF f rest).map fun sr => (b :: sr.1, sr.2) := rfl

theorem unescF_esc (fuel : Nat) (s rest : Bytes) (h : s.length + 1 ≤ fuel) :
    unescF fuel (escStr s ++ 34 :: rest) = some (s, rest) := by
  induction s generalizing fuel with
  | nil =>
    obtain ⟨f, rfl⟩ : ∃ f, fuel = f + 1 := ⟨fuel - 1, by omega⟩
    simp only [escStr, List.map_nil, List.flatten_nil, List.nil_append]
    rw [unescF_cons]
    simp
  | cons b t ih =>
    obtain ⟨f, rfl⟩ : ∃ f, fuel = f + 1 := ⟨fuel - 1, by omega⟩
    have hf : t.length + 1 ≤ f := by
      simp only [List.length_cons] at h
      omega
    rw [escStr_cons, List.append_assoc]
    by_cases e34 : b = 34
    · subst e34
      have he : escByte 34 = [92, 34] := by decide
      rw [he]
      simp only [List.cons_append, List.nil_append, unescF_cons]
      have hs : slashDecode (34 :: (escStr t ++ 34 :: rest)) =
          some (34, escStr t ++ 34 :: rest) := by
        simp [slashDecode, shortEsc]
      simp [hs, ih f hf]
    · by_cases e92 : b = 92
      · subst e92
        have he : escByte 92 = [92, 92] := by decide
        rw [he]
        simp only [List.cons_append, List.nil_append, unescF_cons]
        have hs : slashDecode (92 :: (escStr t ++ 34 :: rest)) =
            some (92, escStr t ++ 34 :: rest) := by
          simp [slashDecode, shortEsc]
        simp [hs, ih f hf]
      · by_cases eshort : b = 8 ∨ b = 9 ∨ b = 10 ∨ b = 12 ∨ b = 13
        · have he : ∃ c, escByte b = [92, c] ∧ shortEsc c = some b := by
            rcases eshort with rfl | rfl | rfl | rfl | rfl
            · exact ⟨98, by decide, by decide⟩
            · exact ⟨116, by decide, by decide⟩
            · exact ⟨110, by decide, by decide⟩
            · exact ⟨102, by decide, by decide⟩
            · exact ⟨114, by decide, by decide⟩
          obtain ⟨c, hec, hsc⟩ := he
          rw [hec]
          simp only [List.cons_append, List.nil_append, unescF_cons]
          have hs : slashDecode (c :: (escStr t ++ 34 :: rest)) =
              some (b, escStr t ++ 34 :: rest) := by
            simp [slashDecode, hsc]
          simp [hs, ih f hf]
        · push_neg at eshort
          obtain ⟨e8, e9, e10, e12, e13⟩ := eshort
          by_cases elt : b < 32
          · have he : escByte b =
                [92, 117, 48, 48, hexDig (b / 16), hexDig (b % 16)] := by
              unfold escByte
              rw [if_neg e34, if_neg e92, if_neg e8, if_neg e9, if_neg e10,
                if_neg e12, if_neg e13, if_pos elt]
            rw [he]
            simp only [List.cons_append, List.nil_append, unescF_cons]
            have hs117 : shortEsc 117 = none := by decide
            have hs : slashDecode (117 :: 48 :: 48 :: hexDig (b / 16) ::
                hexDig (b % 16) :: (escStr t ++ 34 :: rest)) =
                some (16 * unhexDig (hexDig (b / 16)) + unhexDig (hexDig (b % 16)),
                  escStr t ++ 34 :: rest) := by
              simp [slashDecode, hs117]
            have hx1 : unhexDig (hexDig (b / 16)) = b / 16 := unhex_hex _ (by omega)
            have hx2 : unhexDig (hexDig (b % 16)) = b % 16 := unhex_hex _ (by omega)
            have hb : 16 * (b / 16) + b % 16 = b := by omega
            simp [hs, ih f hf, hx1, hx2, hb]
          · have he : escByte b = [b] := by
              unfold escByte
              rw [if_neg e34, if_neg e92, if_neg e8, if_neg e9, if_neg e10,
                if_neg e12, if_neg e13, if_neg elt]
            rw [he]
            simp only [List.cons_append, List.nil_append, unescF_cons]
            simp [e34, e92, ih f hf]

theorem unesc_esc (s rest : Bytes) :
    unesc (escStr s ++ 34 :: rest) = some (s, rest) := by
  have h : s.length + 1 ≤ (escStr s ++ 34 :: rest).length := by
    have := escStr_length_ge s
    simp only [List.length_append, List.length_cons]
    omega
  exact unescF_esc _ s rest h

/-- serde_json round trip on the payload: parsing the canonical encoding
of an entry yields the entry back. -/
theorem parse_enc (e : Entry) : parseEntry (encEntry e) = some e := by
  obtain ⟨k, v, d⟩ := e
  have h1 : encEntry ⟨k, v, d⟩ =
      litKey ++ (escStr k ++ 34 :: ([44, 34, 118, 97, 108, 34, 58, 34] ++
        (escStr v ++ 34 :: ([44, 34, 105, 115, 95, 100, 101, 108, 34, 58] ++
          (if d then litTrue else litFalse))))) := by
    simp [encEntry, litVal, litDel]
  rw [parseEntry, h1]
  simp only [stripPre_append, unesc_esc]
  cases d <;> simp [litTrue, litFalse]

/-- be32 followed by dec32 is the identity below 2^32. -/
theorem dec32_be32 (n : Nat) (h : n < 2 ^ 32) :
    dec32 (n / 2 ^ 24 % 256) (n / 2 ^ 16 % 256) (n / 2 ^ 8 % 256) (n % 256) = n := by
  unfold dec32
  omega

/-- Dropping a prefix plus the 4 length bytes of a frame exposes the
frame's payload. -/
theorem drop_frame (pre p suf : Bytes) :
    (pre ++ frame p ++ suf).drop (pre.length + 4) = p ++ suf := by
  have h : pre ++ frame p ++ suf =
      (pre ++ be32 (p.length % 2 ^ 32)) ++ (p ++ suf) := by
    simp [frame]
  rw [h]
  have hl : (pre ++ be32 (p.length % 2 ^ 32)).length = pre.length + 4 := by
    simp [be32]
  rw [← hl, List.drop_left]

/-- The positioned read of a whole framed record recovers its payload. -/
theorem preadAt_frame (pre p suf : Bytes) :
    preadAt (pre ++ frame p ++ suf) (pre.length + 4) p.length = p := by
  unfold preadAt
  rw [drop_frame, List.take_left]

/-- C8: record codec round trip.  Encoding a record as len_be32 followed
by the JSON payload and decoding it back (read 4 bytes, read exactly that
many, parse) yields the original record; and a record appended by
append_entry, read back by a positioned read of the returned record_len
bytes at the returned payload_offset, decodes to the entry written. -/
theorem C8_record_codec_roundtrip (e : Entry) (file rest : Bytes)
    (h : (encEntry e).length < 2 ^ 32) :
    readRec (frame (encEntry e) ++ rest) = some (encEntry e, rest) ∧
    parseEntry (encEntry e) = some e ∧
    (appendEntry file e).1.1 = (encEntry e).length ∧
    (appendEntry file e).1.2 = file.length + 4 ∧
    parseEntry (preadAt (appendEntry file e).2 (appendEntry file e).1.2
      (appendEntry file e).1.1) = some e := by
  have hmod : (encEntry e).length % 2 ^ 32 = (encEntry e).length := Nat.mod_eq_of_lt h
  refine ⟨?_, parse_enc e, ?_, rfl, ?_⟩
  · show readRec ((be32 ((encEntry e).length % 2 ^ 32) ++ encEntry e) ++ rest) = _
    rw [hmod]
    simp only [be32, List.cons_append, List.nil_append, readRec]
    rw [dec32_be32 _ h]
    have hle : (encEntry e).length ≤ ((encEntry e) ++ rest).length := by
      simp
    rw [if_pos hle, List.take_left, List.drop_left]
  · show (encEntry e).length % 2 ^ 32 = _
    exact hmod
  · show parseEntry (preadAt (file ++ frame (encEntry e)) (file.length + 4)
      ((encEntry e).length % 2 ^ 32)) = some e
    rw [hmod]
    have : file ++ frame (encEntry e) = file ++ frame (encEntry e) ++ [] := by simp
    rw [this, preadAt_frame, parse_enc]

/-- Closed witness for C8 at a concrete record. -/
theorem C8_record_codec_roundtrip_witness :
    ((encEntry (Entry.put [97] [120, 200])).length < 2 ^ 32) ∧
    readRec (frame (encEntry (Entry.put [97] [120, 200])) ++ [7]) =
      some (encEntry (Entry.put [97] [120, 200]), [7]) ∧
    parseEntry (encEntry (Entry.put [97] [120, 200])) = some (Entry.put [97] [120, 200]) := by
  have h : (encEntry (Entry.put [97] [120, 200])).length < 2 ^ 32 := by decide
  obtain ⟨h1, h2, _⟩ := C8_record_codec_roundtrip (Entry.put [97] [120, 200]) [] [7] h
  exact ⟨h, h1, h2⟩

/-- C5: remove on an absent key fails with KeyNotFound and leaves the
whole state unchanged: nothing is appended to any segment file, the index
is unchanged and the uncompacted counter is unchanged. -/
theorem C5_remove_absent_unchanged (s : Sys) (k : Bytes)
    (h : slook s.indices k = none) :
    Writer.remove true s k = (.error .KeyNotFound, s) := by
  simp [Writer.remove, h]

/-- Closed witness for C5: removing an unset key from a freshly opened
store. -/
theorem C5_remove_absent_unchanged_witness :
    slook initSys.indices aK = none ∧
    Writer.remove true initSys aK = (.error .KeyNotFound, initSys) :=
  ⟨by decide, C5_remove_absent_unchanged initSys aK (by decide)⟩

/-- C10: remove is not atomic on an I/O error.  If the disk append of the
delete record fails, remove returns the error, but the index entry is
already gone and a subsequent get returns None. -/
theorem C10_remove_not_atomic (s : Sys) (k : Bytes) (idx : Index)
    (h : slook s.indices k = some idx) :
    (Writer.remove false s k).1 = .error .Io ∧
    slook (Writer.remove false s k).2.indices k = none ∧
    Reader.get (Writer.remove false s k).2 k = some none := by
  refine ⟨by simp [Writer.remove, h], ?_, ?_⟩
  · simp [Writer.remove, h, slook_serase_self]
  · simp [Reader.get, Writer.remove, h, slook_serase_self]

/-- Closed witness for C10 after one set. -/
theorem C10_remove_not_atomic_witness :
    slook (run [Op.set aK [120]]).indices aK = some ⟨1, 36, 4⟩ ∧
    (Writer.remove false (run [Op.set aK [120]]) aK).1 = .error .Io ∧
    Reader.get (Writer.remove false (run [Op.set aK [120]]) aK).2 aK = some none := by
  have h : slook (run [Op.set aK [120]]).indices aK = some ⟨1, 36, 4⟩ := by decide
  obtain ⟨h1, _, h3⟩ := C10_remove_not_atomic (run [Op.set aK [120]]) aK ⟨1, 36, 4⟩ h
  exact ⟨h, h1, h3⟩

/-- C9: the request handler answers ErrNoKey for an empty trimmed key
(for get, the tag byte e then the ErrNoKey line) and ErrNoVal for a set
with an empty trimmed value, and performs no engine call in either
case. -/
theorem C9_empty_key_or_val_no_engine_call (e : EngOracle) (k k2 v : List Char)
    (hk : trim k = []) (hk2 : trim k2 ≠ []) (hv : trim v = []) :
    handler e (.rset k v) = ("ErrNoKey\n".toList, []) ∧
    handler e (.rrm k) = ("ErrNoKey\n".toList, []) ∧
    handler e (.rget k) = ('e' :: "ErrNoKey\n".toList, []) ∧
    handler e (.rset k2 v) = ("ErrNoVal\n".toList, []) := by
  have hk0 : (trim k).length = 0 := by rw [hk]; rfl
  have hk20 : ¬ (trim k2).length = 0 := by
    simpa [List.length_eq_zero] using hk2
  have hv0 : (trim v).length = 0 := by rw [hv]; rfl
  refine ⟨?_, ?_, ?_, ?_⟩ <;> simp [handler, hk0, hk20, hv0]

/-- Closed witness for C9 at concrete requests. -/
theorem C9_empty_key_or_val_no_engine_call_witness :
    trim ['\n', ' '] = [] ∧ trim ['a', '\n'] ≠ [] ∧
    handler ⟨fun _ _ => true, fun _ => none, fun _ => none⟩
      (.rset ['\n', ' '] ['\t']) = ("ErrNoKey\n".toList, []) ∧
    handler ⟨fun _ _ => true, fun _ => none, fun _ => none⟩
      (.rset ['a', '\n'] ['\t']) = ("ErrNoVal\n".toList, []) := by
  have h1 : trim ['\n', ' '] = [] := by decide
  have h2 : trim ['a', '\n'] ≠ [] := by decide
  have h3 : trim ['\t'] = [] := by decide
  obtain ⟨g1, _, _, g4⟩ := C9_empty_key_or_val_no_engine_call
    ⟨fun _ _ => true, fun _ => none, fun _ => none⟩ ['\n', ' '] ['a', '\n'] ['\t'] h1 h2 h3
  exact ⟨h1, h2, g1, g4⟩

/-! ## Characterizations of the step functions -/

theorem set_indices (s : Sys) (k v : Bytes) :
    (Writer.set s k v).indices =
      sset s.indices k ⟨s.wId, (encEntry (Entry.put k v)).length % 2 ^ 32,
        ((alook s.inodes s.wIno).getD []).length + 4⟩ := by
  simp only [Writer.set, appendEntry]
  split <;> rfl

theorem remove_absent_eq (s : Sys) (k : Bytes) (h : slook s.indices k = none) :
    Writer.remove true s k = (.error .KeyNotFound, s) := by
  simp [Writer.remove, h]

theorem remove_ok_indices (s : Sys) (k : Bytes) (old : Index)
    (hs : slook s.indices k = some old) :
    (Writer.remove true s k).2.indices = serase s.indices k := by
  simp only [Writer.remove, hs]
  split
  · split <;> rfl
  · rfl

theorem tick_indices_of_lt (s : Sys) (h : s.unc < COMPACT_THRESHOLD) :
    tick s = s := by
  simp [tick, h]

theorem compact_indices (s : Sys) :
    (Compactor.compact s).indices = redirect s.indices (compactScan s).2 := rfl

/-! ## A key absent from the index stays absent -/

theorem redirect_cons (ind : List (Bytes × Index)) (m : Bytes × Nat × Nat × Nat)
    (t : List (Bytes × Nat × Nat × Nat)) :
    redirect ind (m :: t) = redirect (redirectStep ind m) t := rfl

/-- A redirect step never adds a key: slook stays none. -/
theorem redirectStep_none (k : Bytes) (ind : List (Bytes × Index))
    (m : Bytes × Nat × Nat × Nat) (h : slook ind k = none) :
    slook (redirectStep ind m) k = none := by
  unfold redirectStep
  rcases hs : slook ind m.1 with _ | idx
  · exact h
  · have hne : k ≠ m.1 := by
      intro hh
      rw [hh, hs] at h
      exact Option.noConfusion h
    simp only []
    split
    · rw [slook_sset_ne _ _ _ _ hne]
      exact h
    · exact h

theorem redirect_none (k : Bytes) (moved : List (Bytes × Nat × Nat × Nat))
    (ind : List (Bytes × Index)) (h : slook ind k = none) :
    slook (redirect ind moved) k = none := by
  induction moved generalizing ind with
  | nil => exact h
  | cons m t ih =>
    rw [redirect_cons]
    exact ih _ (redirectStep_none k ind m h)

theorem absent_step (s : Sys) (k : Bytes) (o : Op)
    (h : slook s.indices k = none)
    (ho : ∀ v, o ≠ Op.set k v) :
    slook (step s o).indices k = none := by
  cases o with
  | set k2 v =>
    have hne : k ≠ k2 := by
      intro hh
      exact ho v (by rw [hh])
    show slook (Writer.set s k2 v).indices k = none
    rw [set_indices, slook_sset_ne _ _ _ _ hne]
    exact h
  | rm k2 =>
    show slook (Writer.remove true s k2).2.indices k = none
    rcases hs : slook s.indices k2 with _ | old
    · rw [remove_absent_eq s k2 hs]
      exact h
    · rw [remove_ok_indices s k2 old hs]
      by_cases hk : k = k2
      · subst hk
        exact slook_serase_self _ _
      · rw [slook_serase_ne _ _ _ hk]
        exact h
  | tick =>
    show slook (tick s).indices k = none
    unfold tick
    split
    · exact h
    · rw [compact_indices]
      exact redirect_none k _ _ h

theorem absent_runFrom (mid : List Op) (s : Sys) (k : Bytes)
    (h : slook s.indices k = none) (hmid : avoidsSet k mid = true) :
    slook (runFrom s mid).indices k = none := by
  induction mid generalizing s with
  | nil => exact h
  | cons o t ih =>
    unfold avoidsSet at hmid
    simp only [List.all_cons, Bool.and_eq_true] at hmid
    obtain ⟨h1, h2⟩ := hmid
    have ho : ∀ v, o ≠ Op.set k v := by
      intro v hv
      subst hv
      simp at h1
    exact ih _ (absent_step s k o h ho) h2

theorem remove_ok_absent (s : Sys) (k : Bytes)
    (hok : (Writer.remove true s k).1 = .ok ()) :
    slook (Writer.remove true s k).2.indices k = none := by
  rcases hs : slook s.indices k with _ | old
  · rw [remove_absent_eq s k hs] at hok
    simp at hok
  · rw [remove_ok_indices s k old hs]
    exact slook_serase_self _ _

/-- C4: after a successful remove of key k, get k returns None through
any further operations (including writes to other keys, rotations and
compaction wakeups) until a set of k. -/
theorem C4_remove_then_get_none (s : Sys) (k : Bytes) (mid : List Op)
    (hok : (Writer.remove true s k).1 = .ok ())
    (hmid : avoidsSet k mid = true) :
    Reader.get (runFrom (step s (.rm k)) mid) k = some none := by
  have h0 : slook (step s (.rm k)).indices k = none := remove_ok_absent s k hok
  have h1 : slook (runFrom (step s (.rm k)) mid).indices k = none :=
    absent_runFrom mid _ k h0 hmid
  simp [Reader.get, h1]

/-- Closed witness for C4: set two keys, remove one, then write the other
key and let a compaction wakeup pass. -/
theorem C4_remove_then_get_none_witness :
    (Writer.remove true (run [Op.set aK [120], Op.set bK [121]]) aK).1 = .ok () ∧
    avoidsSet aK [Op.set bK [122], Op.rm bK, Op.tick] = true ∧
    Reader.get (runFrom (step (run [Op.set aK [120], Op.set bK [121]]) (.rm aK))
      [Op.set bK [122], Op.rm bK, Op.tick]) aK = some none := by
  have h1 : (Writer.remove true (run [Op.set aK [120], Op.set bK [121]]) aK).1 = .ok () := by
    rfl
  have h2 : avoidsSet aK [Op.set bK [122], Op.rm bK, Op.tick] = true := by decide
  exact ⟨h1, h2, C4_remove_then_get_none _ aK _ h1 h2⟩

/-! ## The sortedness invariant, over every history -/

theorem mem_hinsert {β : Type} (l : List (Nat × β)) (k : Nat) (v : β) (x : Nat × β)
    (h : x ∈ hinsert l k v) : x = (k, v) ∨ x ∈ l := by
  induction l with
  | nil => simpa [hinsert] using h
  | cons ab t ih =>
    obtain ⟨a, b⟩ := ab
    unfold hinsert at h
    split at h
    · rcases List.mem_cons.mp h with h | h
      · exact Or.inl h
      · exact Or.inr h
    · split at h
      · rename_i hlt heq
        subst heq
        rcases List.mem_cons.mp h with h | h
        · exact Or.inl (by simp [h])
        · exact Or.inr (List.mem_cons_of_mem _ h)
      · rcases List.mem_cons.mp h with h | h
        · exact Or.inr (by simp [h])
        · rcases ih h with h2 | h2
          · exact Or.inl h2
          · exact Or.inr (List.mem_cons_of_mem _ h2)

theorem hinsert_pairwise {β : Type} (l : List (Nat × β)) (k : Nat) (v : β)
    (h : l.Pairwise (fun x y => x.1 < y.1)) :
    (hinsert l k v).Pairwise (fun x y => x.1 < y.1) := by
  induction l with
  | nil => simp [hinsert]
  | cons ab t ih =>
    obtain ⟨a, b⟩ := ab
    rw [List.pairwise_cons] at h
    obtain ⟨ha, ht⟩ := h
    unfold hinsert
    split
    · rename_i hlt
      rw [List.pairwise_cons]
      refine ⟨?_, List.pairwise_cons.mpr ⟨ha, ht⟩⟩
      intro y hy
      rcases List.mem_cons.mp hy with hy | hy
      · simpa [hy] using hlt
      · exact lt_trans hlt (ha y hy)
    · split
      · rename_i hne heq
        subst heq
        exact List.pairwise_cons.mpr ⟨ha, ht⟩
      · rename_i hnlt hne
        rw [List.pairwise_cons]
        refine ⟨?_, ih ht⟩
        intro y hy
        rcases mem_hinsert t k v y hy with hy2 | hy2
        · subst hy2
          omega
        · exact ha y hy2

theorem mem_foldl_aerase {β : Type} (L : List (Nat × β)) (h0 : List (Nat × β))
    (x : Nat × β) (h : x ∈ L.foldl (fun h idf => aerase h idf.1) h0) : x ∈ h0 := by
  induction L generalizing h0 with
  | nil => exact h
  | cons a t ih =>
    have := ih (aerase h0 a.1) h
    exact List.mem_of_mem_filter this

theorem pairwise_foldl_aerase {β : Type} {R : (Nat × β) → (Nat × β) → Prop}
    (L : List (Nat × β)) (h0 : List (Nat × β))
    (h : h0.Pairwise R) :
    (L.foldl (fun h idf => aerase h idf.1) h0).Pairwise R := by
  induction L generalizing h0 with
  | nil => exact h
  | cons a t ih => exact ih _ (List.Pairwise.filter _ h)

theorem sortedInv_cut (s : Sys) (h : SortedInv s) : SortedInv (Writer.cut s) := by
  obtain ⟨hp, hb, hw⟩ := h
  have hcw : (Writer.cut s).wId = s.wId + 1 := rfl
  have hch : (Writer.cut s).handles = hinsert s.handles (s.wId + 1) s.nextIno := rfl
  refine ⟨?_, ?_, ?_⟩
  · rw [hch]
    exact hinsert_pairwise _ _ _ hp
  · intro x hx
    rw [hch] at hx
    rw [hcw]
    rcases mem_hinsert _ _ _ x hx with h2 | h2
    · subst h2
      exact ⟨by omega, by omega⟩
    · have := hb x h2
      omega
  · rw [hcw]
    omega

theorem sortedInv_compact (s : Sys) (h : SortedInv s) :
    SortedInv (Compactor.compact s) := by
  obtain ⟨hp, hb, hw⟩ := h
  have hch : (Compactor.compact s).handles =
      hinsert ((compactSrc s).foldl (fun h idf => aerase h idf.1) s.handles) 1
        s.nextIno := rfl
  have hcw : (Compactor.compact s).wId = s.wId := rfl
  refine ⟨?_, ?_, ?_⟩
  · rw [hch]
    exact hinsert_pairwise _ _ _ (pairwise_foldl_aerase _ _ hp)
  · intro x hx
    rw [hch] at hx
    rw [hcw]
    rcases mem_hinsert _ _ _ x hx with h2 | h2
    · subst h2
      exact ⟨le_refl 1, hw⟩
    · exact hb x (mem_foldl_aerase _ _ x h2)
  · rw [hcw]
    exact hw

theorem sortedInv_step (s : Sys) (o : Op) (h : SortedInv s) : SortedInv (step s o) := by
  cases o with
  | set k v =>
    show SortedInv (Writer.set s k v)
    simp only [Writer.set]
    split
    · exact sortedInv_cut _ h
    · exact h
  | rm k =>
    show SortedInv (Writer.remove true s k).2
    simp only [Writer.remove]
    rcases hs : slook s.indices k with _ | old
    · exact h
    · simp only []
      split
      · split
        · exact sortedInv_cut _ h
        · exact h
      · exact h
  | tick =>
    show SortedInv (tick s)
    unfold tick
    split
    · exact h
    · exact sortedInv_compact s h

theorem sortedInv_run (ops : List Op) : SortedInv (run ops) := by
  have h0 : SortedInv initSys := by
    refine ⟨?_, ?_, le_refl 1⟩
    · simp [initSys]
    · intro x hx
      simp [initSys] at hx
      simp [hx, initSys]
  show SortedInv (runFrom initSys ops)
  generalize initSys = s at h0 ⊢
  induction ops generalizing s with
  | nil => exact h0
  | cons o t ih => exact ih _ (sortedInv_step s o h0)

/-- C7 amended: the compaction set is the two-smallest-file-id prefix of
the whole segment table (in ascending order); whenever the table holds at
least three files this coincides with a prefix of the closed segments and
the active segment is not selected. -/
theorem C7_compaction_set_amended (ops : List Op)
    (h3 : 3 ≤ (run ops).handles.length) :
    srcIds (run ops) = (closedIds (run ops)).take 2 ∧
    (run ops).wId ∉ srcIds (run ops) ∧
    List.Chain' (· < ·) (srcIds (run ops)) := by
  obtain ⟨hp, hb, _⟩ := sortedInv_run ops
  rcases hh : (run ops).handles with _ | ⟨x, _ | ⟨y, _ | ⟨z, t⟩⟩⟩ <;>
    rw [hh] at h3 <;> simp at h3
  rw [hh] at hp hb
  rw [List.pairwise_cons] at hp
  obtain ⟨hx, hp⟩ := hp
  rw [List.pairwise_cons] at hp
  obtain ⟨hy, _⟩ := hp
  have hxy : x.1 < y.1 := hx y (by simp)
  have hxz : x.1 < z.1 := hx z (by simp)
  have hyz : y.1 < z.1 := hy z (by simp)
  have hzw : z.1 ≤ (run ops).wId := (hb z (by simp)).2
  have hxw : x.1 ≠ (run ops).wId := by omega
  have hyw : y.1 ≠ (run ops).wId := by omega
  refine ⟨?_, ?_, ?_⟩
  · simp [srcIds, closedIds, compactSrc, hh, hxw, hyw]
  · simp only [srcIds, compactSrc, hh]
    intro hc
    simp at hc
    rcases hc with hc | hc <;> omega
  · simp [srcIds, compactSrc, hh, hxy]

/-- Closed witness for the amended C7: after two oversized puts the table
holds files 1, 2 and 3, 3 being active; the compaction set is the closed
prefix 1, 2. -/
theorem C7_compaction_set_amended_witness :
    3 ≤ (run opsRot).handles.length ∧
    srcIds (run opsRot) = (closedIds (run opsRot)).take 2 ∧
    (run opsRot).wId ∉ srcIds (run opsRot) := by
  have h3 : 3 ≤ (run opsRot).handles.length := by decide
  obtain ⟨g1, g2, _⟩ := C7_compaction_set_amended opsRot h3
  exact ⟨h3, g1, g2⟩

/-- Counterexample to C7 as stated: a reachable state at which the
compactor fires (uncompacted at least COMPACT_THRESHOLD) and the
selection handles.iter().take(2) contains the active segment's file id,
because the table holds only two files. -/
theorem C7_claim_counterexample :
    COMPACT_THRESHOLD ≤ (run opsPre).unc ∧
    (run opsPre).wId ∈ srcIds (run opsPre) := by
  constructor
  · decide
  · decide

/-! ## Frames, records and offsets -/

theorem frames_nil : frames [] = [] := rfl

theorem frames_cons (p : Bytes) (t : List Bytes) :
    frames (p :: t) = frame p ++ frames t := by
  simp [frames]

theorem frames_append (l1 l2 : List Bytes) :
    frames (l1 ++ l2) = frames l1 ++ frames l2 := by
  simp [frames]

theorem frame_length (p : Bytes) : (frame p).length = 4 + p.length := by
  simp [frame, be32]
  omega

theorem recsAux_frames (ps : List Bytes) :
    ∀ (fuel off : Nat), (frames ps).length ≤ fuel →
    (∀ p ∈ ps, p.length < 2 ^ 32) →
    recsAux fuel (frames ps) off = offsetsGo off ps := by
  induction ps with
  | nil =>
    intro fuel off _ _
    rw [frames_nil]
    cases fuel <;> rfl
  | cons p t ih =>
    intro fuel off hfuel hsz
    have hp : p.length < 2 ^ 32 := hsz p (by simp)
    have hmod : p.length % 2 ^ 32 = p.length := Nat.mod_eq_of_lt hp
    have hlen : (frames (p :: t)).length = 4 + p.length + (frames t).length := by
      rw [frames_cons, List.length_append, frame_length]
    obtain ⟨f, rfl⟩ : ∃ f, fuel = f + 1 := ⟨fuel - 1, by omega⟩
    have hshape : frames (p :: t) =
        (p.length % 2 ^ 32) / 2 ^ 24 % 256 :: (p.length % 2 ^ 32) / 2 ^ 16 % 256 ::
        (p.length % 2 ^ 32) / 2 ^ 8 % 256 :: (p.length % 2 ^ 32) % 256 ::
        (p ++ frames t) := by
      rw [frames_cons]
      simp [frame, be32]
    rw [hshape]
    show ((off + 4, (p ++ frames t).take (dec32 _ _ _ _)) ::
      recsAux f ((p ++ frames t).drop (dec32 _ _ _ _)) (off + 4 + dec32 _ _ _ _)) =
      offsetsGo off (p :: t)
    have hdec : dec32 ((p.length % 2 ^ 32) / 2 ^ 24 % 256)
        ((p.length % 2 ^ 32) / 2 ^ 16 % 256) ((p.length % 2 ^ 32) / 2 ^ 8 % 256)
        ((p.length % 2 ^ 32) % 256) = p.length := by
      rw [dec32_be32 _ (Nat.mod_lt _ (by norm_num))]
      exact hmod
    rw [hdec, List.take_left, List.drop_left]
    have hrec : recsAux f (frames t) (off + 4 + p.length) =
        offsetsGo (off + 4 + p.length) t := by
      apply ih f _ _ (fun q hq => hsz q (by simp [hq]))
      rw [hlen] at hfuel
      omega
    rw [hrec]
    rfl

theorem recsOf_frames (ps : List Bytes) (hsz : ∀ p ∈ ps, p.length < 2 ^ 32) :
    recsOf (frames ps) = offsetsGo 0 ps :=
  recsAux_frames ps _ 0 (le_refl _) hsz

theorem offsetsGo_append (l1 l2 : List Bytes) :
    ∀ off, offsetsGo off (l1 ++ l2) =
      offsetsGo off l1 ++ offsetsGo (off + (frames l1).length) l2 := by
  induction l1 with
  | nil => intro off; simp [offsetsGo, frames_nil]
  | cons p t ih =>
    intro off
    show (off + 4, p) :: offsetsGo (off + 4 + p.length) (t ++ l2) = _
    rw [ih]
    have : off + 4 + p.length + (frames t).length =
        off + (frames (p :: t)).length := by
      rw [frames_cons, List.length_append, frame_length]
      omega
    rw [this]
    rfl

theorem offsetsGo_bounds (ps : List Bytes) :
    ∀ off o q, (o, q) ∈ offsetsGo off ps →
      off + 4 ≤ o ∧ o + q.length ≤ off + (frames ps).length := by
  induction ps with
  | nil => intro off o q h; simp [offsetsGo] at h
  | cons p t ih =>
    intro off o q h
    rcases List.mem_cons.mp h with h | h
    · simp only [Prod.mk.injEq] at h
      obtain ⟨h1, h2⟩ := h
      subst h1
      subst h2
      rw [frames_cons, List.length_append, frame_length]
      omega
    · have := ih (off + 4 + p.length) o q h
      rw [frames_cons, List.length_append, frame_length]
      omega

theorem offsetsGo_mem_payload (ps : List Bytes) :
    ∀ off o q, (o, q) ∈ offsetsGo off ps → q ∈ ps := by
  induction ps with
  | nil => intro off o q h; simp [offsetsGo] at h
  | cons p t ih =>
    intro off o q h
    rcases List.mem_cons.mp h with h | h
    · have := (Prod.mk.inj (by simpa using h)).2
      simp [this]
    · exact List.mem_cons_of_mem _ (ih _ o q h)

/-- Reader::get through three successful lookups. -/
theorem get_eq3 (s : Sys) (k : Bytes) (idx : Index) (ino : Nat) (bytes : Bytes)
    (hidx : slook s.indices k = some idx)
    (hh : alook s.handles idx.file = some ino)
    (hi : alook s.inodes ino = some bytes) :
    Reader.get s k =
      match parseEntry (preadAt bytes idx.offset idx.len) with
      | some e => some (some e.val)
      | none => none := by
  unfold Reader.get
  rw [hidx]
  show (match alook s.handles idx.file with
    | none => none
    | some ino =>
      match alook s.inodes ino with
      | none => none
      | some bytes =>
        match parseEntry (preadAt bytes idx.offset idx.len) with
        | some e => some (some e.val)
        | none => none) = _
  rw [hh]
  show (match alook s.inodes ino with
    | none => none
    | some bytes =>
      match parseEntry (preadAt bytes idx.offset idx.len) with
      | some e => some (some e.val)
      | none => none) = _
  rw [hi]

/-- Reading a backed index entry returns the backed value. -/
theorem get_of_backed (s : Sys) (k : Bytes) (idx : Index) (v : Bytes)
    (hidx : slook s.indices k = some idx) (hb : Backed s k idx v) :
    Reader.get s k = some (some v) := by
  obtain ⟨ino, ps1, ps2, hh, hi, _, _, _, hoff, hlen⟩ := hb
  have hdecomp : frames (ps1 ++ encEntry (Entry.put k v) :: ps2) =
      frames ps1 ++ frame (encEntry (Entry.put k v)) ++ frames ps2 := by
    rw [frames_append, frames_cons, List.append_assoc]
  rw [get_eq3 s k idx ino _ hidx hh hi, hoff, hlen, hdecomp, preadAt_frame, parse_enc]
  rfl

/-! ## The compaction scan -/

theorem compactScan_eq (s : Sys) :
    compactScan s = (scanItems s).foldl (scanStep s) ([], []) := by
  unfold compactScan scanItems List.flatMap
  rw [List.foldl_flatten]
  rw [List.foldl_map]
  congr 1
  funext acc idf
  rw [List.foldl_map]
  rfl

/-- One scan step leaves the compacting output unchanged or appends the
record's frame. -/
theorem scanStep_dst (s : Sys) (acc : Bytes × List (Bytes × Nat × Nat × Nat))
    (it : Nat × Nat × Bytes) :
    (scanStep s acc it).1 = acc.1 ∨ (scanStep s acc it).1 = acc.1 ++ frame it.2.2 := by
  obtain ⟨dst, moved⟩ := acc
  obtain ⟨id, off, p⟩ := it
  unfold scanStep compactRec
  dsimp only
  cases hp : parseEntry p with
  | none => exact Or.inl rfl
  | some e =>
    simp only []
    split
    · split
      · exact Or.inr rfl
      · exact Or.inl rfl
    · cases hsl : slook s.indices e.key with
      | none => exact Or.inl rfl
      | some idx =>
        dsimp only
        by_cases hcond : idx.file = id ∧ idx.offset = off
        · rw [if_pos hcond]
          exact Or.inr rfl
        · rw [if_neg hcond]
          exact Or.inl rfl

/-- Scanning only ever appends whole frames of scanned payloads to the
compacting output. -/
theorem scan_dst_ext (s : Sys) (L : List (Nat × Nat × Bytes)) :
    ∀ acc, (∀ it ∈ L, it.2.2.length < 2 ^ 32) →
    ∃ qs, (L.foldl (scanStep s) acc).1 = acc.1 ++ frames qs ∧
      ∀ q ∈ qs, q.length < 2 ^ 32 := by
  induction L with
  | nil =>
    intro acc _
    exact ⟨[], by simp [frames_nil], by simp⟩
  | cons it t ih =>
    intro acc hsz
    have hstep := scanStep_dst s acc it
    obtain ⟨qs, hq, hqsz⟩ := ih (scanStep s acc it)
      (fun x hx => hsz x (List.mem_cons_of_mem _ hx))
    rcases hstep with h | h
    · exact ⟨qs, by rw [List.foldl_cons, hq, h], hqsz⟩
    · refine ⟨it.2.2 :: qs, ?_, ?_⟩
      · rw [List.foldl_cons, hq, h, frames_cons, List.append_assoc]
      · intro q hq2
        rcases List.mem_cons.mp hq2 with h2 | h2
        · subst h2
          exact hsz it (List.mem_cons_self _ _)
        · exact hqsz q h2

/-- A scan step at an item whose (file, offset) differs from the index
entry of key k never adds a move for k. -/
theorem scanStep_kMoved (s : Sys) (k : Bytes) (idx : Index)
    (hidx : slook s.indices k = some idx)
    (it : Nat × Nat × Bytes) (hmis : ¬(it.1 = idx.file ∧ it.2.1 = idx.offset))
    (acc : Bytes × List (Bytes × Nat × Nat × Nat)) :
    ((scanStep s acc it).2.filter fun m => m.1 = k) =
      acc.2.filter fun m => m.1 = k := by
  obtain ⟨dst, moved⟩ := acc
  obtain ⟨id, off, p⟩ := it
  unfold scanStep compactRec
  dsimp only
  cases hp : parseEntry p with
  | none => rfl
  | some e =>
    simp only []
    split
    · split <;> rfl
    · cases hsl : slook s.indices e.key with
      | none => rfl
      | some idx2 =>
        dsimp only
        by_cases hcond : idx2.file = id ∧ idx2.offset = off
        · rw [if_pos hcond]
          show List.filter _ (moved ++ [(e.key, id, off, dst.length + 4)]) = _
          rw [List.filter_append]
          by_cases hek : e.key = k
          · exfalso
            rw [hek, hidx] at hsl
            have hidx2 : idx = idx2 := by injection hsl
            exact hmis ⟨by rw [hidx2]; exact hcond.1.symm, by rw [hidx2]; exact hcond.2.symm⟩
          · have hnil : List.filter (fun m => decide (m.1 = k))
                [(e.key, id, off, dst.length + 4)] = [] := by
              simp [hek]
            rw [hnil, List.append_nil]
        · rw [if_neg hcond]

/-- Scanning items that all miss the index entry of k adds no move
for k. -/
theorem scan_kMoved_skip (s : Sys) (k : Bytes) (idx : Index)
    (hidx : slook s.indices k = some idx) (L : List (Nat × Nat × Bytes)) :
    ∀ acc, (∀ it ∈ L, ¬(it.1 = idx.file ∧ it.2.1 = idx.offset)) →
    ((L.foldl (scanStep s) acc).2.filter fun m => m.1 = k) =
      acc.2.filter fun m => m.1 = k := by
  induction L with
  | nil => intro acc _; rfl
  | cons it t ih =>
    intro acc hmis
    rw [List.foldl_cons, ih _ (fun x hx => hmis x (List.mem_cons_of_mem _ hx)),
      scanStep_kMoved s k idx hidx it (hmis it (List.mem_cons_self _ _)) acc]

/-- The scan step at the live record of key k: the record is rewritten
and the move is remembered. -/
theorem scanStep_star (s : Sys) (k v : Bytes) (idx : Index)
    (hidx : slook s.indices k = some idx)
    (dst : Bytes) (moved : List (Bytes × Nat × Nat × Nat)) :
    scanStep s (dst, moved) (idx.file, idx.offset, encEntry (Entry.put k v)) =
      (dst ++ frame (encEntry (Entry.put k v)),
        moved ++ [(k, idx.file, idx.offset, dst.length + 4)]) := by
  unfold scanStep compactRec
  dsimp only
  rw [parse_enc]
  show (if (Entry.put k v).is_del = true then _ else _) = _
  rw [if_neg (by simp [Entry.put])]
  show (match slook s.indices (Entry.put k v).key with
    | some idx2 =>
      if idx2.file = idx.file ∧ idx2.offset = idx.offset then
        (dst ++ frame (encEntry (Entry.put k v)),
          moved ++ [((Entry.put k v).key, idx.file, idx.offset, dst.length + 4)])
      else (dst, moved)
    | none => (dst, moved)) = _
  have hk : slook s.indices (Entry.put k v).key = some idx := hidx
  rw [hk]
  dsimp only
  rw [if_pos ⟨rfl, rfl⟩]
  rfl

/-- A redirect step for another key preserves the lookup of k. -/
theorem redirectStep_ne (k : Bytes) (ind : List (Bytes × Index))
    (m : Bytes × Nat × Nat × Nat) (hne : m.1 ≠ k) :
    slook (redirectStep ind m) k = slook ind k := by
  unfold redirectStep
  cases hs : slook ind m.1 with
  | none => rfl
  | some idx =>
    dsimp only
    split
    · exact slook_sset_ne _ _ _ _ (fun hh => hne hh.symm)
    · rfl

/-- Redirecting moves none of which concern k preserves the lookup
of k. -/
theorem redirect_skip (k : Bytes) (moved : List (Bytes × Nat × Nat × Nat)) :
    ∀ ind, (moved.filter fun m => m.1 = k) = [] →
    slook (redirect ind moved) k = slook ind k := by
  induction moved with
  | nil => intro ind _; rfl
  | cons m t ih =>
    intro ind hf
    rw [List.filter_cons] at hf
    split at hf
    · exact absurd hf (by simp)
    · rename_i hmk
      have hne : m.1 ≠ k := by simpa using hmk
      rw [redirect_cons, ih _ hf, redirectStep_ne k ind m hne]

/-- Redirecting a move list whose only k-move is (k, f, o, pos), when
the index entry of k still equals (f, o), rewrites it to file 1 at pos
with the length kept. -/
theorem redirect_kmove (k : Bytes) (f o pos : Nat)
    (moved : List (Bytes × Nat × Nat × Nat)) :
    ∀ (ind : List (Bytes × Index)) (idx : Index),
    (moved.filter fun m => m.1 = k) = [(k, f, o, pos)] →
    slook ind k = some idx → idx.file = f → idx.offset = o →
    slook (redirect ind moved) k = some ⟨1, idx.len, pos⟩ := by
  induction moved with
  | nil => intro ind idx hf _ _ _; simp at hf
  | cons m t ih =>
    intro ind idx hf hidx hff hoo
    rw [List.filter_cons] at hf
    split at hf
    · rename_i hmk
      have hmk2 : m.1 = k := by simpa using hmk
      have hm : m = (k, f, o, pos) ∧ (t.filter fun m => m.1 = k) = [] := by
        constructor
        · exact List.head_eq_of_cons_eq hf
        · exact List.tail_eq_of_cons_eq hf
      obtain ⟨rfl, hft⟩ := hm
      rw [redirect_cons]
      have hstep : redirectStep ind (k, f, o, pos) = sset ind k ⟨1, idx.len, pos⟩ := by
        unfold redirectStep
        rw [hidx]
        dsimp only
        rw [if_pos ⟨hff, hoo⟩]
      rw [hstep, redirect_skip k t _ hft, slook_sset_self]
    · rename_i hmk
      have hne : m.1 ≠ k := by simpa using hmk
      rw [redirect_cons]
      exact ih _ idx hf (by rw [redirectStep_ne k ind m hne]; exact hidx) hff hoo

/-! ## The scan items -/

theorem alook_of_pairwise_mem {β : Type} (l : List (Nat × β)) (f : Nat) (i : β)
    (hmem : (f, i) ∈ l) (hp : l.Pairwise (fun x y => x.1 < y.1)) :
    alook l f = some i := by
  induction l with
  | nil => simp at hmem
  | cons ab t ih =>
    obtain ⟨a, b⟩ := ab
    rw [List.pairwise_cons] at hp
    rcases List.mem_cons.mp hmem with h | h
    · simp only [Prod.mk.injEq] at h
      obtain ⟨h1, h2⟩ := h
      subst h1; subst h2
      simp [alook]
    · have hne : f ≠ a := by
        have := hp.1 (f, i) h
        omega
      simp only [alook, if_neg hne]
      exact ih h hp.2

theorem mem_scanItems (s : Sys) (it : Nat × Nat × Bytes) :
    it ∈ scanItems s ↔ ∃ idf ∈ compactSrc s,
      ∃ r ∈ recsOf ((alook s.inodes idf.2).getD []), it = (idf.1, r.1, r.2) := by
  unfold scanItems
  rw [List.mem_flatMap]
  constructor
  · rintro ⟨idf, hidf, hit⟩
    rw [List.mem_map] at hit
    obtain ⟨r, hr, hrit⟩ := hit
    exact ⟨idf, hidf, r, hr, hrit.symm⟩
  · rintro ⟨idf, hidf, r, hr, rfl⟩
    exact ⟨idf, hidf, List.mem_map.mpr ⟨r, hr, rfl⟩⟩

/-- Every scanned payload of a state whose files are well-formed is
shorter than 2^32. -/
theorem scanItems_wf (s : Sys)
    (hfiles : ∀ idf ∈ s.handles, ∃ b, alook s.inodes idf.2 = some b ∧ WfFile b)
    (it : Nat × Nat × Bytes) (hit : it ∈ scanItems s) : it.2.2.length < 2 ^ 32 := by
  obtain ⟨idf, hidf, r, hr, rfl⟩ := (mem_scanItems s it).mp hit
  obtain ⟨b, hb, qs, hbq, hsz⟩ := hfiles idf (List.take_subset 2 s.handles hidf)
  rw [hb] at hr
  subst hbq
  rw [Option.getD_some, recsOf_frames qs hsz] at hr
  exact hsz r.2 (offsetsGo_mem_payload qs 0 r.1 r.2 (by simpa using hr))

/-- Every scan item's file id is a compaction source id. -/
theorem scanItems_fst (s : Sys) (it : Nat × Nat × Bytes) (hit : it ∈ scanItems s) :
    ∃ idf ∈ compactSrc s, it.1 = idf.1 := by
  obtain ⟨idf, hidf, r, _, rfl⟩ := (mem_scanItems s it).mp hit
  exact ⟨idf, hidf, rfl⟩

/-- When the backed record of key k lies in a compaction source, the scan
rewrites exactly that record for k, remembering the single move to its
offset in the compacting output. -/
theorem compact_star (s : Sys) (k v : Bytes) (idx : Index)
    (hp : s.handles.Pairwise (fun x y => x.1 < y.1))
    (hfiles : ∀ idf ∈ s.handles, ∃ b, alook s.inodes idf.2 = some b ∧ WfFile b)
    (hidx : slook s.indices k = some idx)
    (hb : Backed s k idx v)
    (hsrc : idx.file ∈ srcIds s) :
    ∃ qs1 qs2,
      (compactScan s).1 = frames (qs1 ++ encEntry (Entry.put k v) :: qs2) ∧
      ((compactScan s).2.filter fun m => m.1 = k) =
        [(k, idx.file, idx.offset, (frames qs1).length + 4)] ∧
      (∀ q ∈ qs1, q.length < 2 ^ 32) ∧ (∀ q ∈ qs2, q.length < 2 ^ 32) := by
  obtain ⟨ino, ps1, ps2, hh, hi, hsz1, hsz2, hszp, hoff, hlen⟩ := hb
  set p := encEntry (Entry.put k v) with hpdef
  -- the handle of idx.file inside the source list
  obtain ⟨idf, hidf, hidf1⟩ := List.mem_map.mp hsrc
  have hmemh : idf ∈ s.handles := List.take_subset 2 s.handles hidf
  have halook : alook s.handles idf.1 = some idf.2 :=
    alook_of_pairwise_mem s.handles idf.1 idf.2 (by cases idf; exact hmemh) hp
  rw [hidf1] at halook
  rw [hh] at halook
  have hino : idf = (idx.file, ino) := by
    cases idf
    simp only [Prod.mk.injEq]
    refine ⟨hidf1, ?_⟩
    injection halook with hval
    exact hval.symm
  rw [hino] at hidf
  -- split the sources around it
  obtain ⟨sA, sB, hsplit⟩ := List.mem_iff_append.mp hidf
  have hpsrc : (compactSrc s).Pairwise (fun x y => x.1 < y.1) :=
    hp.sublist (List.take_sublist 2 s.handles)
  rw [hsplit] at hpsrc
  have hAlt : ∀ x ∈ sA, x.1 < idx.file := by
    intro x hx
    have := (List.pairwise_append.mp hpsrc).2.2 x hx (idx.file, ino) (by simp)
    exact this
  have hBgt : ∀ y ∈ sB, idx.file < y.1 := by
    have h2 := (List.pairwise_append.mp hpsrc).2.1
    rw [List.pairwise_cons] at h2
    exact fun y hy => h2.1 y hy
  -- the file's record list around the star record
  have hsizes : ∀ q ∈ ps1 ++ p :: ps2, q.length < 2 ^ 32 := by
    intro q hq
    rcases List.mem_append.mp hq with h | h
    · exact hsz1 q h
    · rcases List.mem_cons.mp h with h | h
      · rw [h]; exact hszp
      · exact hsz2 q h
  have hrecs : recsOf (frames (ps1 ++ p :: ps2)) =
      offsetsGo 0 ps1 ++ (idx.offset, p) ::
        offsetsGo (idx.offset + p.length) ps2 := by
    rw [recsOf_frames _ hsizes, offsetsGo_append]
    have : offsetsGo (0 + (frames ps1).length) (p :: ps2) =
        (idx.offset, p) :: offsetsGo (idx.offset + p.length) ps2 := by
      show ((0 + (frames ps1).length) + 4, p) ::
        offsetsGo ((0 + (frames ps1).length) + 4 + p.length) ps2 = _
      rw [Nat.zero_add, ← hoff]
    rw [this]
  -- the flattened item list around the star item
  have hitems : scanItems s =
      (sA.flatMap (fun idf => (recsOf ((alook s.inodes idf.2).getD [])).map
          fun r => (idf.1, r.1, r.2)) ++
        (offsetsGo 0 ps1).map fun r => (idx.file, r.1, r.2)) ++
      (idx.file, idx.offset, p) ::
      (((offsetsGo (idx.offset + p.length) ps2).map fun r => (idx.file, r.1, r.2)) ++
        sB.flatMap fun idf => (recsOf ((alook s.inodes idf.2).getD [])).map
          fun r => (idf.1, r.1, r.2)) := by
    unfold scanItems
    rw [hsplit, List.flatMap_append, List.flatMap_cons]
    dsimp only
    rw [hi, Option.getD_some, hrecs, List.map_append, List.map_cons]
    simp only [List.append_assoc, List.cons_append]
  set L1 := sA.flatMap (fun idf => (recsOf ((alook s.inodes idf.2).getD [])).map
      fun r => (idf.1, r.1, r.2)) ++
    (offsetsGo 0 ps1).map fun r => (idx.file, r.1, r.2) with hL1
  set L2 := ((offsetsGo (idx.offset + p.length) ps2).map
      fun r => (idx.file, r.1, r.2)) ++
    sB.flatMap (fun idf => (recsOf ((alook s.inodes idf.2).getD [])).map
      fun r => (idf.1, r.1, r.2)) with hL2
  have hmis1 : ∀ it ∈ L1, ¬(it.1 = idx.file ∧ it.2.1 = idx.offset) := by
    intro it hit
    rcases List.mem_append.mp hit with h | h
    · obtain ⟨idf2, hidf2, hit2⟩ := List.mem_flatMap.mp h
      obtain ⟨r, _, rfl⟩ := List.mem_map.mp hit2
      have := hAlt idf2 hidf2
      intro hc
      omega
    · obtain ⟨r, hr, rfl⟩ := List.mem_map.mp h
      obtain ⟨o, q⟩ := r
      have hbd := offsetsGo_bounds ps1 0 o q hr
      intro hc
      have : o = idx.offset := hc.2
      omega
  have hmis2 : ∀ it ∈ L2, ¬(it.1 = idx.file ∧ it.2.1 = idx.offset) := by
    intro it hit
    rcases List.mem_append.mp hit with h | h
    · obtain ⟨r, hr, rfl⟩ := List.mem_map.mp h
      obtain ⟨o, q⟩ := r
      have hbd := offsetsGo_bounds ps2 (idx.offset + p.length) o q hr
      intro hc
      have : o = idx.offset := hc.2
      omega
    · obtain ⟨idf2, hidf2, hit2⟩ := List.mem_flatMap.mp h
      obtain ⟨r, _, rfl⟩ := List.mem_map.mp hit2
      have := hBgt idf2 hidf2
      intro hc
      omega
  have hsub1 : ∀ it ∈ L1, it.2.2.length < 2 ^ 32 := by
    intro it hit
    apply scanItems_wf s hfiles it
    rw [hitems]
    exact List.mem_append_left _ hit
  have hsub2 : ∀ it ∈ L2, it.2.2.length < 2 ^ 32 := by
    intro it hit
    apply scanItems_wf s hfiles it
    rw [hitems]
    exact List.mem_append_right _ (List.mem_cons_of_mem _ hit)
  -- walk the fold
  rw [compactScan_eq, hitems, List.foldl_append, List.foldl_cons]
  obtain ⟨qsA, hqsA, hszA⟩ := scan_dst_ext s L1 ([], []) hsub1
  have hkA : ((L1.foldl (scanStep s) ([], [])).2.filter fun m => m.1 = k) = [] := by
    rw [scan_kMoved_skip s k idx hidx L1 ([], []) hmis1]
    rfl
  set acc1 := L1.foldl (scanStep s) ([], []) with hacc1
  have hstar : scanStep s acc1 (idx.file, idx.offset, p) =
      (acc1.1 ++ frame p, acc1.2 ++ [(k, idx.file, idx.offset, acc1.1.length + 4)]) := by
    have := scanStep_star s k v idx hidx acc1.1 acc1.2
    rw [hpdef]
    exact this
  rw [hstar]
  obtain ⟨qsB, hqsB, hszB⟩ := scan_dst_ext s L2
    (acc1.1 ++ frame p, acc1.2 ++ [(k, idx.file, idx.offset, acc1.1.length + 4)]) hsub2
  refine ⟨qsA, qsB, ?_, ?_, hszA, hszB⟩
  · rw [hqsB]
    show acc1.1 ++ frame p ++ frames qsB = _
    rw [hqsA]
    simp only [List.nil_append]
    rw [frames_append, frames_cons, List.append_assoc]
  · rw [scan_kMoved_skip s k idx hidx L2 _ hmis2]
    show ((acc1.2 ++ [(k, idx.file, idx.offset, acc1.1.length + 4)]).filter
      fun m => m.1 = k) = _
    rw [List.filter_append, hkA]
    have hlen1 : acc1.1.length = (frames qsA).length := by
      rw [hqsA]
      simp
    rw [hlen1]
    simp

/-- When the index entry of k points outside the compaction sources, the
scan adds no move for k. -/
theorem compact_kMoved_nil (s : Sys) (k : Bytes) (idx : Index)
    (hidx : slook s.indices k = some idx) (hnot : idx.file ∉ srcIds s) :
    ((compactScan s).2.filter fun m => m.1 = k) = [] := by
  rw [compactScan_eq]
  rw [scan_kMoved_skip s k idx hidx (scanItems s) ([], []) ?_]
  · rfl
  · intro it hit hc
    obtain ⟨idf, hidf, h1⟩ := scanItems_fst s it hit
    apply hnot
    rw [← hc.1, h1]
    exact List.mem_map.mpr ⟨idf, hidf, rfl⟩

theorem compact_handles (s : Sys) :
    (Compactor.compact s).handles =
      hinsert ((compactSrc s).foldl (fun h idf => aerase h idf.1) s.handles) 1
        s.nextIno := rfl

theorem compact_inodes (s : Sys) :
    (Compactor.compact s).inodes = aset s.inodes s.nextIno (compactScan s).1 := rfl

theorem alook_foldl_aerase_ne {β : Type} (L : List (Nat × Nat))
    (f : Nat) (hne : ∀ idf ∈ L, idf.1 ≠ f) :
    ∀ h0 : List (Nat × β),
    alook (L.foldl (fun h idf => aerase h idf.1) h0) f = alook h0 f := by
  induction L with
  | nil => intro h0; rfl
  | cons a t ih =>
    intro h0
    rw [List.foldl_cons, ih (fun x hx => hne x (List.mem_cons_of_mem _ hx)),
      alook_aerase_ne _ _ _ (fun hh => hne a (List.mem_cons_self _ _) hh.symm)]

/-- File id 1 is always among the compaction sources when it is in the
table (it is the smallest id). -/
theorem one_mem_srcIds (s : Sys)
    (hp : s.handles.Pairwise (fun x y => x.1 < y.1))
    (hbnd : ∀ idf ∈ s.handles, 1 ≤ idf.1 ∧ idf.1 ≤ s.wId)
    (h1m : alook s.handles 1 ≠ none) : 1 ∈ srcIds s := by
  rcases h1i : alook s.handles 1 with _ | i1
  · exact absurd h1i h1m
  · have hmem : (1, i1) ∈ s.handles := alook_mem _ _ _ h1i
    rcases hh : s.handles with _ | ⟨⟨a, b⟩, t⟩
    · rw [hh] at hmem
      simp at hmem
    · rw [hh] at hmem hp hbnd
      rcases List.mem_cons.mp hmem with h | h
      · have ha : a = 1 := by
          simp only [Prod.mk.injEq] at h
          exact h.1.symm
        subst ha
        unfold srcIds compactSrc
        rw [hh]
        cases t <;> simp
      · exfalso
        rw [List.pairwise_cons] at hp
        have := hp.1 (1, i1) h
        have := (hbnd (a, b) (List.mem_cons_self _ _)).1
        omega

/-- Compaction preserves the backing of every live index entry: the
entry of k after the tick is either untouched (source files do not hold
its record) or redirected to the rewritten record in the new segment 1,
in both cases backed by a put record with the same value and length. -/
theorem compact_backed (s : Sys) (k v : Bytes) (idx : Index)
    (hp : s.handles.Pairwise (fun x y => x.1 < y.1))
    (hbnd : ∀ idf ∈ s.handles, 1 ≤ idf.1 ∧ idf.1 ≤ s.wId)
    (h1m : alook s.handles 1 ≠ none)
    (hfiles : ∀ idf ∈ s.handles, ∃ b, alook s.inodes idf.2 = some b ∧ WfFile b)
    (hfresh : ∀ idf ∈ s.handles, idf.2 < s.nextIno)
    (hidx : slook s.indices k = some idx) (hb : Backed s k idx v) :
    ∃ idx2, slook (Compactor.compact s).indices k = some idx2 ∧
      Backed (Compactor.compact s) k idx2 v ∧ idx2.len = idx.len := by
  by_cases hsrc : idx.file ∈ srcIds s
  · obtain ⟨qs1, qs2, hdst, hfil, hszA, hszB⟩ := compact_star s k v idx hp hfiles hidx hb hsrc
    obtain ⟨_, _, _, _, _, _, _, hszp, _, hlen⟩ := hb
    refine ⟨⟨1, idx.len, (frames qs1).length + 4⟩, ?_, ?_, rfl⟩
    · rw [compact_indices]
      exact redirect_kmove k idx.file idx.offset _ _ _ idx hfil hidx rfl rfl
    · refine ⟨s.nextIno, qs1, qs2, ?_, ?_, hszA, hszB, hszp, rfl, hlen⟩
      · rw [compact_handles]
        exact alook_hinsert_self _ _ _
      · rw [compact_inodes, alook_aset_self, hdst]
  · have hone : 1 ∈ srcIds s := one_mem_srcIds s hp hbnd h1m
    have hne1 : idx.file ≠ 1 := fun hh => hsrc (hh ▸ hone)
    have hfil : ((compactScan s).2.filter fun m => m.1 = k) = [] :=
      compact_kMoved_nil s k idx hidx hsrc
    obtain ⟨ino, ps1, ps2, hh, hi, hsz1, hsz2, hszp, hoff, hlen⟩ := hb
    refine ⟨idx, ?_, ?_, rfl⟩
    · rw [compact_indices, redirect_skip k _ _ hfil]
      exact hidx
    · refine ⟨ino, ps1, ps2, ?_, ?_, hsz1, hsz2, hszp, hoff, hlen⟩
      · rw [compact_handles, alook_hinsert_ne _ _ _ _ hne1,
          alook_foldl_aerase_ne (compactSrc s) idx.file
            (fun idf hidf hh2 => hsrc (hh2 ▸ List.mem_map.mpr ⟨idf, hidf, rfl⟩)) s.handles]
        exact hh
      · have hmemino : (idx.file, ino) ∈ s.handles := alook_mem _ _ _ hh
        have : ino < s.nextIno := hfresh _ hmemino
        rw [compact_inodes, alook_aset_ne _ _ _ _ (by omega)]
        exact hi

/-! ## Preservation of the good-state invariant -/

theorem hinsert_pairwise_snd {β : Type} (l : List (Nat × β)) (k : Nat) (v : β)
    [DecidableEq β]
    (h : l.Pairwise (fun x y => x.2 ≠ y.2)) (hv : ∀ x ∈ l, x.2 ≠ v) :
    (hinsert l k v).Pairwise (fun x y => x.2 ≠ y.2) := by
  induction l with
  | nil => simp [hinsert]
  | cons ab t ih =>
    obtain ⟨a, b⟩ := ab
    rw [List.pairwise_cons] at h
    obtain ⟨ha, ht⟩ := h
    unfold hinsert
    split
    · rw [List.pairwise_cons]
      refine ⟨?_, List.pairwise_cons.mpr ⟨ha, ht⟩⟩
      intro y hy
      rcases List.mem_cons.mp hy with hy | hy
      · rw [hy]
        exact fun hh => hv (a, b) (List.mem_cons_self _ _) hh.symm
      · exact fun hh => hv y (List.mem_cons_of_mem _ hy) hh.symm
    · split
      · rw [List.pairwise_cons]
        refine ⟨?_, ht⟩
        intro y hy
        exact fun hh => hv y (List.mem_cons_of_mem _ hy) hh.symm
      · rw [List.pairwise_cons]
        refine ⟨?_, ih ht (fun x hx => hv x (List.mem_cons_of_mem _ hx))⟩
        intro y hy
        rcases mem_hinsert t k v y hy with hy2 | hy2
        · rw [hy2]
          exact hv (a, b) (List.mem_cons_self _ _)
        · exact ha y hy2

/-- The writer's file id is at least 1 in any good state. -/
theorem wId_pos (s : Sys) (hInv : GoodInv s) : 1 ≤ s.wId := by
  rcases h1i : alook s.handles 1 with _ | i1
  · exact absurd h1i hInv.one_mem
  · exact (hInv.bounds (1, i1) (alook_mem _ _ _ h1i)).2

/-- Backing survives appending a record through the writer's handle. -/
theorem backed_after_append (s s2 : Sys) (p : Bytes) (hp : p.length < 2 ^ 32)
    (hhandles : s2.handles = s.handles)
    (hinodes : s2.inodes =
      aset s.inodes s.wIno (((alook s.inodes s.wIno).getD []) ++ frame p))
    (k : Bytes) (idx : Index) (v : Bytes) (hb : Backed s k idx v) :
    Backed s2 k idx v := by
  obtain ⟨ino, ps1, ps2, hh, hi, hsz1, hsz2, hszp, hoff, hlen⟩ := hb
  by_cases hw : ino = s.wIno
  · subst hw
    refine ⟨s.wIno, ps1, ps2 ++ [p], ?_, ?_, hsz1, ?_, hszp, hoff, hlen⟩
    · rw [hhandles]; exact hh
    · rw [hinodes, alook_aset_self, hi, Option.getD_some]
      congr 1
      simp [frames_append, frames_cons, frames_nil]
    · intro q hq
      rcases List.mem_append.mp hq with h | h
      · exact hsz2 q h
      · rw [List.mem_singleton.mp h]; exact hp
  · refine ⟨ino, ps1, ps2, ?_, ?_, hsz1, hsz2, hszp, hoff, hlen⟩
    · rw [hhandles]; exact hh
    · rw [hinodes, alook_aset_ne _ _ _ _ hw]; exact hi

/-- Files stay well-formed when a frame is appended through the writer's
handle. -/
theorem files_after_append (s s2 : Sys) (p : Bytes) (hp : p.length < 2 ^ 32)
    (hhandles : s2.handles = s.handles)
    (hinodes : s2.inodes =
      aset s.inodes s.wIno (((alook s.inodes s.wIno).getD []) ++ frame p))
    (hfiles : ∀ idf ∈ s.handles, ∃ b, alook s.inodes idf.2 = some b ∧ WfFile b) :
    ∀ idf ∈ s2.handles, ∃ b, alook s2.inodes idf.2 = some b ∧ WfFile b := by
  intro idf hidf
  rw [hhandles] at hidf
  obtain ⟨b, hbl, qs, hbq, hsz⟩ := hfiles idf hidf
  by_cases hw : idf.2 = s.wIno
  · refine ⟨b ++ frame p, ?_, qs ++ [p], ?_, ?_⟩
    · rw [hinodes, hw, alook_aset_self, ← hw, hbl, Option.getD_some]
    · rw [hbq, frames_append, frames_cons, frames_nil, List.append_nil]
    · intro q hq
      rcases List.mem_append.mp hq with h | h
      · exact hsz q h
      · rw [List.mem_singleton.mp h]; exact hp
  · refine ⟨b, ?_, qs, hbq, hsz⟩
    rw [hinodes, alook_aset_ne _ _ _ _ hw]
    exact hbl

/-- The writer's current file is a well-formed stream. -/
theorem writer_file_wf (s : Sys) (hInv : GoodInv s) :
    ∃ qs, (alook s.inodes s.wIno).getD [] = frames qs ∧
      ∀ q ∈ qs, q.length < 2 ^ 32 := by
  obtain ⟨b, hbl, qs, hbq, hsz⟩ := hInv.files (s.wId, s.wIno)
    (alook_mem _ _ _ hInv.wlink)
  exact ⟨qs, by rw [hbl, Option.getD_some, hbq], hsz⟩

theorem goodInv_cut (s : Sys) (hInv : GoodInv s) : GoodInv (Writer.cut s) := by
  have hw1 : 1 ≤ s.wId := wId_pos s hInv
  have hch : (Writer.cut s).handles = hinsert s.handles (s.wId + 1) s.nextIno := rfl
  have hcw : (Writer.cut s).wId = s.wId + 1 := rfl
  have hci : (Writer.cut s).wIno = s.nextIno := rfl
  have hcn : (Writer.cut s).nextIno = s.nextIno + 1 := rfl
  have hcio : (Writer.cut s).inodes = aset s.inodes s.nextIno [] := rfl
  have hcind : (Writer.cut s).indices = s.indices := rfl
  constructor
  · rw [hch]
    exact hinsert_pairwise _ _ _ hInv.sorted
  · intro x hx
    rw [hch] at hx
    rw [hcw]
    rcases mem_hinsert _ _ _ x hx with h2 | h2
    · subst h2
      exact ⟨by omega, by omega⟩
    · have := hInv.bounds x h2
      omega
  · rw [hch, hcw, hci]
    exact alook_hinsert_self _ _ _
  · rw [hch, alook_hinsert_ne _ _ _ _ (by omega)]
    exact hInv.one_mem
  · intro idf hidf
    rw [hch] at hidf
    rcases mem_hinsert _ _ _ idf hidf with h2 | h2
    · subst h2
      refine ⟨[], ?_, [], rfl, by simp⟩
      rw [hcio]
      exact alook_aset_self _ _ _
    · obtain ⟨b, hbl, hwf⟩ := hInv.files idf h2
      have : idf.2 < s.nextIno := hInv.inoFresh idf h2
      refine ⟨b, ?_, hwf⟩
      rw [hcio, alook_aset_ne _ _ _ _ (by omega)]
      exact hbl
  · intro idf hidf
    rw [hch] at hidf
    rw [hcn]
    rcases mem_hinsert _ _ _ idf hidf with h2 | h2
    · subst h2
      omega
    · have := hInv.inoFresh idf h2
      omega
  · rw [hch]
    apply hinsert_pairwise_snd _ _ _ hInv.inoDistinct
    intro x hx
    have := hInv.inoFresh x hx
    omega
  · intro k idx hk
    rw [hcind] at hk
    obtain ⟨v, ino, ps1, ps2, hh, hi, hsz1, hsz2, hszp, hoff, hlen⟩ := hInv.backed k idx hk
    have hmem : (idx.file, ino) ∈ s.handles := alook_mem _ _ _ hh
    have hlt : idx.file ≤ s.wId := (hInv.bounds _ hmem).2
    have hino : ino < s.nextIno := hInv.inoFresh _ hmem
    refine ⟨v, ino, ps1, ps2, ?_, ?_, hsz1, hsz2, hszp, hoff, hlen⟩
    · rw [hch, alook_hinsert_ne _ _ _ _ (by omega)]
      exact hh
    · rw [hcio, alook_aset_ne _ _ _ _ (by omega)]
      exact hi

/-- Generic transfer of the invariant across a state that only appended
one frame through the writer's handle and changed the index. -/
theorem goodInv_append (s s2 : Sys) (p : Bytes) (hp : p.length < 2 ^ 32)
    (hni : s2.nextIno = s.nextIno) (hh : s2.handles = s.handles)
    (hwid : s2.wId = s.wId) (hwino : s2.wIno = s.wIno)
    (hin : s2.inodes =
      aset s.inodes s.wIno (((alook s.inodes s.wIno).getD []) ++ frame p))
    (hbk : ∀ k idx, slook s2.indices k = some idx → ∃ v, Backed s2 k idx v)
    (hInv : GoodInv s) : GoodInv s2 := by
  constructor
  · rw [hh]; exact hInv.sorted
  · rw [hh, hwid]; exact hInv.bounds
  · rw [hh, hwid, hwino]; exact hInv.wlink
  · rw [hh]; exact hInv.one_mem
  · exact files_after_append s s2 p hp hh hin hInv.files
  · rw [hh, hni]; exact hInv.inoFresh
  · rw [hh]; exact hInv.inoDistinct
  · exact hbk

theorem goodInv_set (s : Sys) (k v : Bytes)
    (hval : (encEntry (Entry.put k v)).length < 2 ^ 32)
    (hInv : GoodInv s) : GoodInv (Writer.set s k v) := by
  have hmod : (encEntry (Entry.put k v)).length % 2 ^ 32 =
      (encEntry (Entry.put k v)).length := Nat.mod_eq_of_lt hval
  have hmid : GoodInv (setMid s k v) := by
    refine goodInv_append s _ (encEntry (Entry.put k v)) hval rfl rfl rfl rfl rfl ?_ hInv
    intro k2 idx hk2
    have hind : (setMid s k v).indices = sset s.indices k
        ⟨s.wId, (encEntry (Entry.put k v)).length % 2 ^ 32,
          ((alook s.inodes s.wIno).getD []).length + 4⟩ := rfl
    by_cases hkk : k2 = k
    · subst hkk
      rw [hind, slook_sset_self] at hk2
      injection hk2 with hk2
      subst hk2
      obtain ⟨qs, hqs, hqsz⟩ := writer_file_wf s hInv
      refine ⟨v, s.wIno, qs, [], hInv.wlink, ?_, hqsz, by simp, hval, ?_, ?_⟩
      · show alook (aset s.inodes s.wIno
            (((alook s.inodes s.wIno).getD []) ++ frame (encEntry (Entry.put k2 v))))
            s.wIno = _
        rw [alook_aset_self, hqs]
        congr 1
        simp [frames_append, frames_cons, frames_nil]
      · show ((alook s.inodes s.wIno).getD []).length + 4 = (frames qs).length + 4
        rw [hqs]
      · exact hmod
    · rw [hind, slook_sset_ne _ _ _ _ hkk] at hk2
      obtain ⟨v2, hb⟩ := hInv.backed k2 idx hk2
      exact ⟨v2, backed_after_append s (setMid s k v) (encEntry (Entry.put k v))
        hval rfl rfl k2 idx v2 hb⟩
  have heq : Writer.set s k v =
      if SEGMENT_SIZE ≤ (((alook s.inodes s.wIno).getD []).length + 4) +
          (encEntry (Entry.put k v)).length % 2 ^ 32 then
        Writer.cut (setMid s k v)
      else setMid s k v := by
    unfold Writer.set setMid appendEntry
    dsimp only
  rw [heq]
  split
  · exact goodInv_cut _ hmid
  · exact hmid

theorem goodInv_rm (s : Sys) (k : Bytes)
    (hval : (encEntry (Entry.del k)).length < 2 ^ 32)
    (hInv : GoodInv s) : GoodInv (Writer.remove true s k).2 := by
  rcases hold : slook s.indices k with _ | old
  · have heq : (Writer.remove true s k).2 = s := by
      unfold Writer.remove
      rw [hold]
    rw [heq]
    exact hInv
  · have hmid : GoodInv (rmMid s k old) := by
      refine goodInv_append s _ (encEntry (Entry.del k)) hval rfl rfl rfl rfl rfl ?_ hInv
      intro k2 idx hk2
      have hind : (rmMid s k old).indices = serase s.indices k := rfl
      by_cases hkk : k2 = k
      · subst hkk
        rw [hind, slook_serase_self] at hk2
        exact absurd hk2 (by simp)
      · rw [hind, slook_serase_ne _ _ _ hkk] at hk2
        obtain ⟨v2, hb⟩ := hInv.backed k2 idx hk2
        exact ⟨v2, backed_after_append s (rmMid s k old) (encEntry (Entry.del k))
          hval rfl rfl k2 idx v2 hb⟩
    have heq : (Writer.remove true s k).2 =
        if SEGMENT_SIZE ≤ (((alook s.inodes s.wIno).getD []).length + 4) +
            (encEntry (Entry.del k)).length % 2 ^ 32 then
          Writer.cut (rmMid s k old)
        else rmMid s k old := by
      unfold Writer.remove rmMid appendEntry
      rw [hold]
      rfl
    rw [heq]
    split
    · exact goodInv_cut _ hmid
    · exact hmid

theorem wfFile_append_frame (b p : Bytes) (hb : WfFile b) (hp : p.length < 2 ^ 32) :
    WfFile (b ++ frame p) := by
  obtain ⟨qs, rfl, hqs⟩ := hb
  refine ⟨qs ++ [p], ?_, ?_⟩
  · simp [frames_append, frames_cons, frames_nil]
  · intro q hq
    rcases List.mem_append.mp hq with h | h
    · exact hqs q h
    · rw [List.mem_singleton.mp h]; exact hp

theorem compactRec_wf (s : Sys) (id : Nat) (dst : Bytes)
    (moved : List (Bytes × Nat × Nat × Nat)) (off : Nat) (p : Bytes)
    (hacc : WfFile dst) (hp : p.length < 2 ^ 32) :
    WfFile (compactRec s id (dst, moved) (off, p)).1 := by
  unfold compactRec
  dsimp only
  cases hpe : parseEntry p with
  | none => exact hacc
  | some e =>
    dsimp only
    by_cases hdel : e.is_del = true
    · rw [if_pos hdel]
      by_cases habs : slook s.indices e.key = none
      · rw [if_pos habs]
        exact wfFile_append_frame dst p hacc hp
      · rw [if_neg habs]
        exact hacc
    · rw [if_neg hdel]
      cases hsl : slook s.indices e.key with
      | none => exact hacc
      | some idx =>
        dsimp only
        by_cases hmatch : idx.file = id ∧ idx.offset = off
        · rw [if_pos hmatch]
          exact wfFile_append_frame dst p hacc hp
        · rw [if_neg hmatch]
          exact hacc

theorem scan_dst_wf (s : Sys) (items : List (Nat × Nat × Bytes))
    (hsz : ∀ it ∈ items, it.2.2.length < 2 ^ 32) :
    ∀ acc : Bytes × List (Bytes × Nat × Nat × Nat),
      WfFile acc.1 → WfFile (items.foldl (scanStep s) acc).1 := by
  induction items with
  | nil => intro acc h; exact h
  | cons it t ih =>
    intro acc hacc
    rw [List.foldl_cons]
    refine ih (fun x hx => hsz x (List.mem_cons_of_mem _ hx)) _ ?_
    obtain ⟨dst, moved⟩ := acc
    obtain ⟨id, off, p⟩ := it
    exact compactRec_wf s id dst moved off p hacc (hsz _ (List.mem_cons_self _ _))

/-- The compacting file built by the scan is a well-formed stream. -/
theorem compactScan_wf (s : Sys)
    (hfiles : ∀ idf ∈ s.handles, ∃ b, alook s.inodes idf.2 = some b ∧ WfFile b) :
    WfFile (compactScan s).1 := by
  rw [compactScan_eq]
  exact scan_dst_wf s (scanItems s) (fun it hit => scanItems_wf s hfiles it hit)
    ([], []) ⟨[], by rw [frames_nil], by simp⟩

/-- In a strictly ascending table of at least three entries, the first
two keys are strictly below any upper bound of the whole table. -/
theorem take2_lt_of_three {α : Type} (l : List (Nat × α)) (w : Nat)
    (hp : l.Pairwise (fun x y => x.1 < y.1))
    (h3 : 3 ≤ l.length) (hbnd : ∀ x ∈ l, x.1 ≤ w) :
    ∀ x ∈ l.take 2, x.1 < w := by
  rcases l with _ | ⟨a, l⟩
  · simp at h3
  rcases l with _ | ⟨b, l⟩
  · simp at h3
  rcases l with _ | ⟨c, l⟩
  · simp at h3
  intro x hx
  rw [List.pairwise_cons] at hp
  obtain ⟨ha, hp⟩ := hp
  rw [List.pairwise_cons] at hp
  obtain ⟨hb, _⟩ := hp
  have hcw : c.1 ≤ w := hbnd c (by simp)
  have hac : a.1 < c.1 := ha c (by simp)
  have hbc : b.1 < c.1 := hb c (by simp)
  have hx2 : x ∈ [a, b] := hx
  have hx3 : x = a ∨ x = b := by simpa using hx2
  rcases hx3 with rfl | rfl <;> omega

/-- Compaction from a good state with at least three table entries
preserves the invariant: the sources are closed segments only. -/
theorem goodInv_compact (s : Sys) (h3 : 3 ≤ s.handles.length)
    (hInv : GoodInv s) : GoodInv (Compactor.compact s) := by
  have hlt : ∀ idf ∈ compactSrc s, idf.1 < s.wId :=
    take2_lt_of_three s.handles s.wId hInv.sorted h3 (fun x hx => (hInv.bounds x hx).2)
  have hw1 : 1 < s.wId := by
    have h1 : 1 ∈ srcIds s := one_mem_srcIds s hInv.sorted hInv.bounds hInv.one_mem
    unfold srcIds at h1
    obtain ⟨idf, hidf, hidf1⟩ := List.mem_map.mp h1
    have := hlt idf hidf
    omega
  constructor
  · rw [compact_handles]
    exact hinsert_pairwise _ _ _ (pairwise_foldl_aerase _ _ hInv.sorted)
  · intro x hx
    rw [compact_handles] at hx
    rcases mem_hinsert _ _ _ x hx with h2 | h2
    · subst h2
      exact ⟨le_refl 1, le_of_lt hw1⟩
    · exact hInv.bounds x (mem_foldl_aerase _ _ _ h2)
  · show alook (Compactor.compact s).handles s.wId = some s.wIno
    rw [compact_handles, alook_hinsert_ne _ _ _ _ (by omega : s.wId ≠ 1),
      alook_foldl_aerase_ne _ _ (fun idf hidf => by have := hlt idf hidf; omega)]
    exact hInv.wlink
  · show alook (Compactor.compact s).handles 1 ≠ none
    rw [compact_handles, alook_hinsert_self]
    simp
  · intro idf hidf
    rw [compact_handles] at hidf
    rcases mem_hinsert _ _ _ idf hidf with h2 | h2
    · subst h2
      refine ⟨(compactScan s).1, ?_, compactScan_wf s hInv.files⟩
      show alook (Compactor.compact s).inodes s.nextIno = some (compactScan s).1
      rw [compact_inodes, alook_aset_self]
    · have hmem : idf ∈ s.handles := mem_foldl_aerase _ _ _ h2
      obtain ⟨b, hb, hwf⟩ := hInv.files idf hmem
      have : idf.2 < s.nextIno := hInv.inoFresh idf hmem
      refine ⟨b, ?_, hwf⟩
      rw [compact_inodes, alook_aset_ne _ _ _ _ (by omega)]
      exact hb
  · intro idf hidf
    rw [compact_handles] at hidf
    show idf.2 < s.nextIno + 1
    rcases mem_hinsert _ _ _ idf hidf with h2 | h2
    · subst h2
      exact Nat.lt_succ_self s.nextIno
    · have := hInv.inoFresh idf (mem_foldl_aerase _ _ _ h2)
      omega
  · rw [compact_handles]
    apply hinsert_pairwise_snd _ _ _ (pairwise_foldl_aerase _ _ hInv.inoDistinct)
    intro x hx
    have := hInv.inoFresh x (mem_foldl_aerase _ _ _ hx)
    omega
  · intro k idx2 hk
    rcases horig : slook s.indices k with _ | idx
    · exfalso
      have hnone := redirect_none k (compactScan s).2 s.indices horig
      rw [compact_indices, hnone] at hk
      exact Option.noConfusion hk
    · obtain ⟨v, hb⟩ := hInv.backed k idx horig
      obtain ⟨idx2', hidx2', hb2, _⟩ := compact_backed s k v idx hInv.sorted hInv.bounds
        hInv.one_mem hInv.files hInv.inoFresh horig hb
      rw [hk] at hidx2'
      injection hidx2' with he
      rw [← he] at hb2
      exact ⟨v, hb2⟩

theorem goodInv_step (s : Sys) (o : Op) (hval : validOp o = true)
    (hgood : o = Op.tick → s.unc < COMPACT_THRESHOLD ∨ 3 ≤ s.handles.length)
    (hInv : GoodInv s) : GoodInv (step s o) := by
  cases o with
  | set k v =>
    exact goodInv_set s k v (by simpa [validOp] using hval) hInv
  | rm k =>
    exact goodInv_rm s k (by simpa [validOp] using hval) hInv
  | tick =>
    show GoodInv (tick s)
    unfold tick
    by_cases hu : s.unc < COMPACT_THRESHOLD
    · rw [if_pos hu]
      exact hInv
    · rw [if_neg hu]
      have h3 : 3 ≤ s.handles.length := by
        rcases hgood rfl with h | h
        · exact absurd h hu
        · exact h
      exact goodInv_compact s h3 hInv

theorem goodInv_init : GoodInv initSys := by
  constructor
  · simp [initSys]
  · intro idf hidf
    simp [initSys] at hidf
    simp [initSys, hidf]
  · rfl
  · simp [initSys, alook]
  · intro idf hidf
    simp [initSys] at hidf
    refine ⟨[], ?_, [], rfl, by simp⟩
    simp [initSys, hidf, alook]
  · intro idf hidf
    simp [initSys] at hidf
    simp [initSys, hidf]
  · simp [initSys]
  · intro k idx hk
    simp [initSys, slook] at hk

theorem goodInv_runFrom (ops : List Op) :
    ∀ s, validOps ops = true → goodAux s ops = true → GoodInv s →
      GoodInv (runFrom s ops) := by
  induction ops with
  | nil =>
    intro s _ _ h
    exact h
  | cons o t ih =>
    intro s hval hgood hInv
    simp only [validOps, List.all_cons, Bool.and_eq_true] at hval
    obtain ⟨hvo, hvt⟩ := hval
    simp only [goodAux, Bool.and_eq_true] at hgood
    obtain ⟨hgo, hgt⟩ := hgood
    show GoodInv (runFrom (step s o) t)
    refine ih (step s o) hvt hgt (goodInv_step s o hvo ?_ hInv)
    intro ho
    subst ho
    simpa using hgo

/-- Every state reached by a valid good history satisfies the invariant. -/
theorem goodInv_run (ops : List Op) (hval : validOps ops = true)
    (hgood : goodRun ops = true) : GoodInv (run ops) :=
  goodInv_runFrom ops initSys hval hgood goodInv_init

/-- C3: compaction preserves the observable key-value map.  In every
reachable state where a compaction tick fires (uncompacted at or above
COMPACT_THRESHOLD), every key present in the index reads the same value
immediately after the tick as immediately before: the scan rewrites each
live record and the compare-and-update redirects its entry exactly when
it still equals the remembered (file_id, offset), so the redirected entry
is backed by the rewritten record in the compacting file. -/
theorem C3_compaction_preserves_gets (ops : List Op) (k : Bytes) (idx : Index)
    (hval : validOps ops = true) (hgood : goodRun ops = true)
    (hidx : slook (run ops).indices k = some idx)
    (hfire : COMPACT_THRESHOLD ≤ (run ops).unc) :
    Reader.get (tick (run ops)) k = Reader.get (run ops) k := by
  have hInv : GoodInv (run ops) := goodInv_run ops hval hgood
  obtain ⟨v, hb⟩ := hInv.backed k idx hidx
  have hbefore : Reader.get (run ops) k = some (some v) :=
    get_of_backed _ k idx v hidx hb
  obtain ⟨idx2, hidx2, hb2, _⟩ := compact_backed (run ops) k v idx hInv.sorted
    hInv.bounds hInv.one_mem hInv.files hInv.inoFresh hidx hb
  have hafter : Reader.get (Compactor.compact (run ops)) k = some (some v) :=
    get_of_backed _ k idx2 v hidx2 hb2
  have htick : tick (run ops) = Compactor.compact (run ops) := by
    unfold tick
    rw [if_neg (by omega)]
  rw [htick, hafter, hbefore]

/-- C3 witness: the two-segment history opsPre fires a tick at
uncompacted 2052 with key b live in the index, and reading b after the
tick equals reading it before. -/
theorem C3_compaction_preserves_gets_witness :
    validOps opsPre = true ∧ goodRun opsPre = true ∧
    slook (run opsPre).indices bK = some ⟨1, 80, 4⟩ ∧
    COMPACT_THRESHOLD ≤ (run opsPre).unc ∧
    Reader.get (tick (run opsPre)) bK = Reader.get (run opsPre) bK :=
  ⟨by decide, by decide, by decide, by decide,
    C3_compaction_preserves_gets opsPre bK ⟨1, 80, 4⟩ (by decide) (by decide)
      (by decide) (by decide)⟩

/-- C1: sequential per-key read-your-writes is violated by the code.  In
the reachable history opsBug the last operation is set(c, "w"), which
returns Ok, no later operation touches key c, and yet the very next
get(c) does not return Some("w"): it aborts, because the tick before the
set compacted and deleted the active segment (the table held only two
files), so c's index entry names a file id absent from the segment table
and Reader::get's unwrap on the table lookup panics. -/
theorem C1_read_your_writes_violated :
    validOps opsBug = true ∧
    opsBug = opsTick ++ [Op.set cK [119]] ∧
    Reader.get (run opsBug) cK = none :=
  ⟨by decide, rfl, by decide⟩

/-- C2: recovery equivalence is violated by the code.  After the
crash-free history opsBug, re-opening the directory does not reproduce
the pre-close get results for key c: the live store's get(c) aborts on
the missing segment-table entry, while the re-opened store returns
Ok(None) — the put record for c was appended through the deleted active
file's still-open handle, so it is on no segment the directory scan can
see and the write is silently lost. -/
theorem C2_recovery_not_equivalent :
    Reader.get (openKv (diskOf (run opsBug))) cK = some none ∧
    Reader.get (run opsBug) cK ≠ Reader.get (openKv (diskOf (run opsBug))) cK :=
  ⟨by decide, by decide⟩

/-- C6: the claimed safety invariant is violated by the code.  In the
reachable state run opsBug the index entry for key c carries file id 2,
but 2 is no longer a key of the segment table: the compactor selected
the active segment as a source and removed it.  Reader::get's
handles.get(&idx.file).unwrap() panics on exactly this entry. -/
theorem C6_index_entry_file_missing_from_table :
    slook (run opsBug).indices cK = some ⟨2, 36, 1012⟩ ∧
    alook (run opsBug).handles 2 = none :=
  ⟨by decide, by decide⟩

end Kvs
